import Mathlib

/-!
# Verification of the dnskeytool key-lifecycle and rotation planner

Shallow embedding of the relevant parts of `src/dnskeytool`:

* `dnssec.py` — the `KeyFile` record with its lifecycle timestamps, the
  `state` cascade and `next_change`;
* `util.py` — `groupby_freeze` (an `itertools.groupby` frozen into a dict);
* `shell.py` — the `main_rotate` rotation planner and `make_successor`;
* `resolver.py` — the recursive resolver's error-handling skeleton;
* `lookup.py` — `PublishedKeyCollection.query_zone` / `contacted_servers`.

Timestamps are modelled as `Int` seconds (UTC instants); `timedelta`
durations as `Int` seconds.  Python `None` becomes `Option.none`, raised
exceptions become `Except.error`.
-/

/-- One DNSSEC key file's identity and lifecycle timestamps, as parsed by
`dnssec.py:KeyFile.__init__` (the path handling is out of scope). -/
structure KeyFile where
  zone : String
  type : String
  algo : Nat
  keyid : Nat
  d_create : Option Int
  d_publish : Option Int
  d_active : Option Int
  d_inactive : Option Int
  d_delete : Option Int
deriving DecidableEq, Repr, Inhabited

/-- The guard pattern `t is not None and t <= ref` of the `state` cascade. -/
def tsLE (t : Option Int) (ref : Int) : Bool :=
  match t with
  | none => false
  | some d => decide (d ≤ ref)

/-- The `Created`-in-the-future guard `t is not None and t > ref`. -/
def tsGT (t : Option Int) (ref : Int) : Bool :=
  match t with
  | none => false
  | some d => decide (ref < d)

/-- Embedding of `KeyFile.state` (dnssec.py lines 72–85): the strict priority cascade.
The source returns the empty string for the "unknown" state. -/
def KeyFile.state (k : KeyFile) (ref : Int) : String :=
  if tsLE k.d_delete ref then "DEL"
  else if tsLE k.d_inactive ref then "INAC"
  else if tsLE k.d_active ref then "ACT"
  else if tsLE k.d_publish ref then "PUB"
  else if tsGT k.d_create ref then "FUT"
  else ""

/-- The list `assigned` of `KeyFile.next_change`: the present timestamps among
publish/activate/inactivate/delete, in that order (`Created` excluded). -/
def KeyFile.assigned (k : KeyFile) : List Int :=
  [k.d_publish, k.d_active, k.d_inactive, k.d_delete].filterMap id

/-- Embedding of `KeyFile.next_change` (dnssec.py lines 87–96): check that the assigned
timestamps are already in sorted order, then return the first one strictly
after `ref` (Python's `next(filter(...), None)`), else fail. -/
def KeyFile.next_change (k : KeyFile) (ref : Int) : Except String (Option Int) :=
  if List.insertionSort (· ≤ ·) k.assigned = k.assigned then
    .ok (k.assigned.find? (fun x => decide (ref < x)))
  else
    .error "Inconsistent Dates"

/-! ## util.py — `groupby_freeze`

`groupby_freeze(it, key) = {k: list(g) for k, g in itertools.groupby(it, key)}`.
`itertools.groupby` yields one `(key, group)` pair per *run of consecutive*
elements with equal keys; the dict comprehension then keeps, for each key,
the value of its **last** run (later duplicate keys overwrite earlier ones)
while iteration order follows the **first** occurrence of each key. -/

/-- The consecutive runs produced by `itertools.groupby`. -/
def groupbyRuns {α β : Type} [DecidableEq β] (f : α → β) : List α → List (β × List α)
  | [] => []
  | a :: l =>
    match groupbyRuns f l with
    | [] => [(f a, [a])]
    | (b, g) :: rest =>
      if f a = b then (f a, a :: g) :: rest else (f a, [a]) :: (b, g) :: rest

/-- Dict lookup on the frozen groupby: duplicate keys were overwritten by
later runs, so a lookup returns the group of the *last* run with that key. -/
def dictGet {α β : Type} [DecidableEq β] (runs : List (β × List α)) (b : β) :
    Option (List α) :=
  ((runs.filter (fun p => decide (p.1 = b))).getLast?).map (fun p => p.2)

/-- First-occurrence-deduplicated list (Python dict key iteration order). -/
def uniqFirst {β : Type} [DecidableEq β] : List β → List β
  | [] => []
  | b :: r => b :: ((uniqFirst r).filter (fun x => decide (x ≠ b)))

/-- The `dict.items()` view of the frozen groupby: keys in first-occurrence order,
each mapped to the group of its last run. -/
def dictItems {α β : Type} [DecidableEq β] (runs : List (β × List α)) : List (β × List α) :=
  (uniqFirst (runs.map (·.1))).filterMap (fun b => (dictGet runs b).map (fun g => (b, g)))

/-! ## shell.py — `main_rotate`, the rotation planner -/

/-- One entry of the `plan` list built by `main_rotate`:
`["set_times", active, dict(delete=...)]` or `["make_successor", template, activate_at]`. -/
inductive RotationAction where
  | set_times (key : KeyFile) (delete : Int)
  | make_successor (template : KeyFile) (activate_at : Int)
deriving DecidableEq, Repr

/-- Strict lexicographic order on `List Nat` (shorter prefixes first). -/
def natListLt : List Nat → List Nat → Bool
  | _, [] => false
  | [], _ :: _ => true
  | a :: as, b :: bs => decide (a < b) || (a == b && natListLt as bs)

/-- Reflexive lexicographic order on `List Nat`. -/
def natListLE (u v : List Nat) : Bool := natListLt u v || u == v

/-- The sort data of `KeyFile.sort_key`: the source sorts by the string
`f"{zone}+{type}+{algo:03d}+{keyid:05d}"`.  DNS zone and type characters all
collate after `'+'` and the numeric fields are zero-padded to fixed width, so
comparing those strings is comparing the code-point sequences of `zone` and
`type` with a low separator, then `algo`, then `keyid`. -/
def KeyFile.sortData (k : KeyFile) : List Nat :=
  k.zone.data.map Char.toNat ++ [0] ++ k.type.data.map Char.toNat ++ [0, k.algo, k.keyid]

/-- The `KeyFile.sort_key` comparison, as a relation for sorting. -/
def sortKeyLE (a b : KeyFile) : Prop := natListLE a.sortData b.sortData = true

instance : DecidableRel sortKeyLE := fun _ _ =>
  inferInstanceAs (Decidable (_ = true))

/-- Embedding of `DnsSec.list_keys`: the key files, sorted by `KeyFile.sort_key`. -/
def listSorted (keys : List KeyFile) : List KeyFile :=
  List.insertionSort sortKeyLE keys

/-- The filtering pipeline at the top of `main_rotate` (shell.py 234–238):
list the zone's keys (sorted), keep the requested type, and drop keys
without an `Inactive` date or already in state DEL. -/
def qualifyingKeys (keys0 : List KeyFile) (ktype : String) (ref : Int) : List KeyFile :=
  ((listSorted keys0).filter (fun k => k.type == ktype)).filter
    (fun k => k.d_inactive.isSome && !(k.state ref == "DEL"))

/-- The body of the `for active in activekeys` loop (shell.py 280–288):
maybe fix the deletion time, then create a successor if no key of the
group is active one second after this key's inactivation. -/
def checkActive (akeys : List KeyFile) (template : KeyFile) (post : Int)
    (active : KeyFile) : List RotationAction :=
  (if active.d_delete.isNone ||
      decide (active.d_delete.getD 0 > active.d_inactive.getD 0 + 1 + post) then
    [RotationAction.set_times active (active.d_inactive.getD 0 + post)]
  else []) ++
  (if (akeys.filter (fun k => k.state (active.d_inactive.getD 0 + 1) == "ACT")).isEmpty then
    [RotationAction.make_successor template (active.d_inactive.getD 0)]
  else [])

/-- The `sorted(akeys, key=lambda k: k.d_create or epoch)[-1]` template choice. -/
def pickTemplate (akeys : List KeyFile) : KeyFile :=
  (List.insertionSort (fun a b : KeyFile => a.d_create.getD 0 ≤ b.d_create.getD 0) akeys).getLastD
    default

/-- The planner's per-active-key selection inside one algorithm group:
`by_state = groupby_freeze(akeys, state)`; `by_state["ACT"]`, defaulting to
`[]` when the group has no active key (the `continue` branch). -/
def selActives (akeys : List KeyFile) (ref : Int) : List KeyFile :=
  (dictGet (groupbyRuns (fun k => k.state ref) akeys) "ACT").getD []

/-- Plan contribution of a single algorithm group (shell.py 264–288). -/
def groupPlan (akeys : List KeyFile) (post ref : Int) : List RotationAction :=
  match dictGet (groupbyRuns (fun k => k.state ref) akeys) "ACT" with
  | none => []
  | some actkeys =>
    (List.insertionSort (fun a b : KeyFile => a.d_inactive.getD 0 ≤ b.d_inactive.getD 0)
      actkeys).flatMap (checkActive akeys (pickTemplate akeys) post)

/-- The full planning loop (shell.py 260–289): group the qualified keys by
algorithm with `groupby_freeze` and concatenate each group's plan. -/
def planCore (keys : List KeyFile) (post ref : Int) : List RotationAction :=
  (dictItems (groupbyRuns (fun k => k.algo) keys)).flatMap (fun p => groupPlan p.2 post ref)

/-- Embedding of `main_rotate` (shell.py 231–293), up to the point where the plan is
printed or executed: either an exception (`raise ...`) or the final `plan`
(the empty plan covers both early `return 0` paths). -/
def main_rotate (keys0 : List KeyFile) (ktype : String)
    (prepub life post overl ref : Int) : Except String (List RotationAction) :=
  if ktype ≠ "ZSK" then .error "Only ZSKs can be rotated."
  else if (qualifyingKeys keys0 ktype ref).isEmpty then .ok []
  else if prepub < 0 then .error "Key pre-publication is negative"
  else if life < 0 then .error "Key lifetime is negative"
  else if post < 0 then .error "Key post-publication is negative"
  else if overl < 0 then .error "Key overlap is negative"
  else if overl ≥ life then .error "Key overlap is longer than lifetime"
  else .ok (planCore (qualifyingKeys keys0 ktype ref) post ref)

/-- The timestamps computed by `make_successor` (shell.py 307–311) for a
`make_successor` action: `(publishes, activates, inactivates, deletes)`. -/
def make_successor_times (activate_at prepub life post overl : Int) :
    Int × Int × Int × Int :=
  let activates := activate_at - overl
  let publishes := activates - prepub
  let inactivates := activates + life
  let deletes := inactivates + post
  (publishes, activates, inactivates, deletes)

/-- Numeric position of a state in the key lifecycle (the source encodes the
"unknown" state as the empty string; `FUT` precedes it because a freshly
created key becomes unknown once its creation time has passed without any
other milestone being set). -/
def lifecycleRank : String → Nat
  | "FUT" => 0
  | "PUB" => 2
  | "ACT" => 3
  | "INAC" => 4
  | "DEL" => 5
  | _ => 1


/-! ## Executing a plan (for the idempotence claim)

`main_rotate` executes `set_times` via `dnssec-settime` (updating the key's
`Delete` timestamp in place) and `make_successor` via `dnssec-keygen -S`
followed by `dnssec-settime` (creating a fresh key of the template's zone,
type and algorithm carrying the four computed timestamps, created "now").
The fresh key's id is chosen by `dnssec-keygen` and no planner decision
depends on it, so the model reuses the template's id. -/

/-- The new deletion time the plan assigns to `k`, if any. -/
def planAdjust (plan : List RotationAction) (k : KeyFile) : Option Int :=
  plan.findSome? (fun a =>
    match a with
    | RotationAction.set_times key nd => if key = k then some nd else none
    | RotationAction.make_successor _ _ => none)

/-- Execute the `set_times` actions that target `k`. -/
def applyAdjust (plan : List RotationAction) (k : KeyFile) : KeyFile :=
  match planAdjust plan k with
  | some nd => { k with d_delete := some nd }
  | none => k

/-- The key created by executing a `make_successor` action at time `ref`. -/
def execSuccessor (tmpl : KeyFile) (activate_at prepub life post overl ref : Int) :
    KeyFile :=
  let t := make_successor_times activate_at prepub life post overl
  { tmpl with
      d_create := some ref, d_publish := some t.1, d_active := some t.2.1,
      d_inactive := some t.2.2.1, d_delete := some t.2.2.2 }

/-- The key set that results from executing every action of a plan. -/
def applyPlan (keys : List KeyFile) (plan : List RotationAction)
    (prepub life post overl ref : Int) : List KeyFile :=
  keys.map (applyAdjust plan) ++
    plan.filterMap (fun a =>
      match a with
      | RotationAction.set_times _ _ => none
      | RotationAction.make_successor t activate_at =>
        some (execSuccessor t activate_at prepub life post overl ref))

/-! ## resolver.py — the recursive resolver's error-handling skeleton

Shallow model of `RecursiveResolver` (resolver.py 93–213).  The network is a
function from (server address, query name, record type) to an optional
response; `none` models a TCP `ConnectionError`.  `query_at` wraps a
connection failure into a nameserver-specific `NoNameservers` error carrying
that one server's error entry (resolver.py 105–119).  dnspython's
`Answer.rrset` is modelled as the first answer rrset matching the queried
name and type.  Recursion depth is bounded by fuel (the real code recurses
along the DNS delegation hierarchy). -/

inductive RType where
  | A | AAAA | NS | CNAME | SOA | DNSKEY
deriving DecidableEq, Repr

structure RRset where
  name : String
  rdtype : RType
  records : List String
deriving DecidableEq, Repr

structure DnsResponse where
  rcode : Nat
  answer : List RRset
  authority : List RRset
  additional : List RRset
deriving DecidableEq, Repr

inductive DnsErr where
  | noNameservers (errors : List (String × String))
  | noAnswer (nameserver : String)
  | nxdomain (qname : String)
  | yxdomain
  | outOfFuel
deriving DecidableEq, Repr

/-- dnspython `Answer`: the answering server and the matching rrset. -/
structure Answer where
  nameserver : String
  rrset : Option RRset
deriving DecidableEq, Repr

def Answer.addresses (a : Answer) : List String :=
  match a.rrset with
  | none => []
  | some rs => rs.records

/-- The `Answer.rrset` computation: the answer rrset matching the queried name and type. -/
def ansRRset (qname : String) (what : RType) (resp : DnsResponse) : Option RRset :=
  resp.answer.find? (fun rs => rs.name == qname && rs.rdtype == what)

/-- Embedding of `RecursiveResolver.query_at`: one TCP query; a `ConnectionError` is
wrapped into `NoNameservers(errors=[(where, 1, 53, ex, None)])`. -/
def query_at (net : String → String → RType → Option DnsResponse)
    (zone : String) (what : RType) (srv : String) : Except DnsErr DnsResponse :=
  match net srv zone what with
  | none => .error (.noNameservers [(srv, "ConnectionError")])
  | some r => .ok r

/-- Glue addresses for host `h` of family `ty` in the additional section. -/
def glueAddrs (additional : List RRset) (h : String) (ty : RType) : List String :=
  (additional.filter (fun rs => rs.name == h && rs.rdtype == ty)).flatMap
    (fun rs => rs.records)

mutual

/-- Embedding of `RecursiveResolver.query`: full recursion from the root servers (the
per-process cache only memoizes results, so it is semantically transparent). -/
def rqQuery (net : String → String → RType → Option DnsResponse)
    (roots : List String) : Nat → String → RType → Except DnsErr Answer
  | 0, _, _ => .error .outOfFuel
  | fuel + 1, qname, what => rqLoop net roots fuel roots qname what []
termination_by fuel _ _ => (fuel, 0, 0, 0)

/-- The `for ns in nameservers` loop of `_recursive_query` with its `errors`
accumulator.  The source's `except ConnectionError: errors.append(...)`
branch is dead code — `query_at` has already wrapped every connection error
into a `NoNameservers` exception, which the first `except` arm silently
skips — so no call site ever extends `errors`. -/
def rqLoop (net : String → String → RType → Option DnsResponse)
    (roots : List String) :
    Nat → List String → String → RType → List (String × String) → Except DnsErr Answer
  | _, [], qname, _, errors =>
    let _ := qname
    .error (.noNameservers errors)
  | fuel, ns :: rest, qname, what, errors =>
    match query_at net qname what ns with
    | .error (.noNameservers _) => rqLoop net roots fuel rest qname what errors
    | .error e => .error e
    | .ok resp =>
      if resp.rcode = 0 then
        match ansRRset qname what resp with
        | some rs => .ok ⟨ns, some rs⟩
        | none =>
          match resp.answer.find? (fun rs => rs.rdtype == RType.CNAME) with
          | some crs => rqQuery net roots fuel (crs.records.getD 0 "") what
          | none =>
            if resp.authority.isEmpty then rqLoop net roots fuel rest qname what errors
            else if resp.authority.any (fun rs => rs.rdtype == RType.SOA) then
              .error (.noAnswer ns)
            else if !(resp.authority.any (fun rs => rs.rdtype == RType.NS)) then
              .error (.noAnswer ns)
            else
              match fuel with
              | 0 => .error .outOfFuel
              | fuel' + 1 =>
                match rqAuthority net roots fuel' resp.authority resp.additional with
                | .error e => .error e
                | .ok nss => rqLoop net roots fuel' nss qname what []
      else if resp.rcode = 3 then .error (.nxdomain qname)
      else if resp.rcode = 6 then .error .yxdomain
      else rqLoop net roots fuel rest qname what errors
termination_by fuel nss _ _ _ => (fuel, 3, nss.length, 0)

/-- Embedding of `_authority_ns_resolver` (preferred family AAAA first, then A), resolved
eagerly: in-response glue when the host appears in the additional section,
else a recursive address lookup. -/
def rqAuthority (net : String → String → RType → Option DnsResponse)
    (roots : List String) (fuel : Nat) (authority additional : List RRset) :
    Except DnsErr (List String) :=
  match rqCollect net roots fuel additional RType.AAAA
      ((authority.filter (fun rs => rs.rdtype == RType.NS)).flatMap
        (fun rs => rs.records)) with
  | .error e => .error e
  | .ok a6 =>
    match rqCollect net roots fuel additional RType.A
        ((authority.filter (fun rs => rs.rdtype == RType.NS)).flatMap
          (fun rs => rs.records)) with
    | .error e => .error e
    | .ok a4 => .ok (a6 ++ a4)
termination_by (fuel, 2, 0, 0)

/-- Address collection for a list of NS hostnames in one address family. -/
def rqCollect (net : String → String → RType → Option DnsResponse)
    (roots : List String) :
    Nat → List RRset → RType → List String → Except DnsErr (List String)
  | _, _, _, [] => .ok []
  | fuel, additional, ty, h :: hs =>
    if additional.any (fun rs => rs.name == h) then
      match rqCollect net roots fuel additional ty hs with
      | .error e => .error e
      | .ok rest => .ok (glueAddrs additional h ty ++ rest)
    else
      match rqQuery net roots fuel h ty with
      | .error e => .error e
      | .ok ans =>
        match rqCollect net roots fuel additional ty hs with
        | .error e => .error e
        | .ok rest => .ok (ans.addresses ++ rest)
termination_by fuel _ _ hs => (fuel, 1, hs.length, 0)

end

/-! ## lookup.py — `PublishedKeyCollection`

Shallow model of `query_zone` / `contacted_servers` (lookup.py 24–138).
The network is modelled per zone: the DS lookup either succeeds — returning
the resolver that answered together with the DS tags — or fails with a DNS
error; the zone's nameserver list and each server's DNSKEY/RRSIG answers are
given by the environment (NS lookup and address resolution are assumed to
succeed; their failures abort the whole `query_zone` call in the source and
are irrelevant to the `contacted_servers` claim).  Python's
`sorted(set(...))` over strings is the sorted list of distinct code-point
sequences. -/

structure ZoneEnv where
  ds : Except String (String × List String)
  nsList : List String
  dnskey : String → Except String (List String)
  rrsig : String → Except String (List String)

/-- Code-point comparison of strings (Python string `<=`). -/
def strLE (a b : String) : Prop :=
  natListLE (a.data.map Char.toNat) (b.data.map Char.toNat) = true

instance : DecidableRel strLE := fun _ _ =>
  inferInstanceAs (Decidable (_ = true))

/-- Python `sorted(set(l))` for strings. -/
def sortedSet (l : List String) : List String :=
  List.insertionSort strLE (uniqFirst l)

structure PublishedKeyCollection where
  explicit_nameservers : Option (List String)
  used_resolver : Option String
  known_zones : List String
  zone_ds : List (String × Except String (List String))
  zone_dnskey : List (String × List (String × Except String (List String)))
  zone_signers : List (String × List (String × Except String (List String)))

/-- A freshly constructed collection (lookup.py 25–33). -/
def initCollection (explicit : Option (List String)) : PublishedKeyCollection :=
  ⟨explicit, none, [], [], [], []⟩

/-- Embedding of `PublishedKeyCollection.query_zone` (lookup.py 41–73): memoized per
zone; the DS answer sets `used_resolver`, then every query server is asked
for DNSKEY and RRSIG, errors recorded per server. -/
def query_zone (env : String → ZoneEnv) (c : PublishedKeyCollection)
    (zone : String) : PublishedKeyCollection :=
  if zone ∈ c.known_zones then c
  else
    let c1 :=
      match (env zone).ds with
      | .ok (ns, tags) =>
        { c with used_resolver := some ns,
                 zone_ds := c.zone_ds ++
                   [(zone, (Except.ok (sortedSet tags) : Except String (List String)))] }
      | .error e =>
        { c with zone_ds := c.zone_ds ++
            [(zone, (Except.error e : Except String (List String)))] }
    let qs :=
      match c.explicit_nameservers with
      | some l => l
      | none => (env zone).nsList
    { c1 with
        zone_dnskey := c1.zone_dnskey ++
          [(zone, qs.map (fun ns => (ns, ((env zone).dnskey ns).map sortedSet)))],
        zone_signers := c1.zone_signers ++
          [(zone, qs.map (fun ns => (ns, ((env zone).rrsig ns).map sortedSet)))],
        known_zones := zone :: c1.known_zones }

/-- Embedding of `PublishedKeyCollection.contacted_servers` (lookup.py 135–138):
`sorted(set(...))` over the DNSKEY-map servers, then `insert(0,
used_resolver)` — the resolver is prepended even when `None` and without
deduplication against the zone servers. -/
def contacted_servers (c : PublishedKeyCollection) : List (Option String) :=
  c.used_resolver ::
    (sortedSet (c.zone_dnskey.flatMap (fun p => p.2.map Prod.fst))).map some

/-- The query servers used for a zone: the explicit override when present,
else the zone's own NS set. -/
def zoneQueryServers (explicit : Option (List String)) (env : String → ZoneEnv)
    (zone : String) : List String :=
  match explicit with
  | some l => l
  | none => (env zone).nsList


/-! ## State machine lemmas -/

theorem natListLt_irrefl : ∀ u, natListLt u u = false
  | [] => rfl
  | _ :: as => by simp [natListLt, natListLt_irrefl as]

theorem natListLt_total : ∀ u v, natListLt u v = true ∨ natListLt v u = true ∨ u = v
  | [], [] => Or.inr (Or.inr rfl)
  | [], _ :: _ => Or.inl rfl
  | _ :: _, [] => Or.inr (Or.inl rfl)
  | a :: as, b :: bs => by
    rcases Nat.lt_trichotomy a b with h | h | h
    · exact Or.inl (by simp [natListLt, h])
    · subst h
      rcases natListLt_total as bs with h' | h' | h'
      · exact Or.inl (by simp [natListLt, h'])
      · exact Or.inr (Or.inl (by simp [natListLt, h']))
      · exact Or.inr (Or.inr (by rw [h']))
    · exact Or.inr (Or.inl (by simp [natListLt, h]))

theorem natListLt_trans : ∀ u v w, natListLt u v = true → natListLt v w = true →
    natListLt u w = true
  | _, [], _ => by simp [natListLt]
  | [], _ :: _, [] => by simp [natListLt]
  | [], _ :: _, _ :: _ => by simp [natListLt]
  | _ :: _, _ :: _, [] => by simp [natListLt]
  | a :: as, b :: bs, c :: cs => by
    simp only [natListLt, Bool.or_eq_true, Bool.and_eq_true, decide_eq_true_eq, beq_iff_eq]
    rintro (hab | ⟨rfl, hab⟩) (hbc | ⟨rfl, hbc⟩)
    · exact Or.inl (Nat.lt_trans hab hbc)
    · exact Or.inl hab
    · exact Or.inl hbc
    · exact Or.inr ⟨rfl, natListLt_trans as bs cs hab hbc⟩

instance : IsTotal KeyFile sortKeyLE :=
  ⟨fun a b => by
    unfold sortKeyLE natListLE
    rcases natListLt_total a.sortData b.sortData with h | h | h <;> simp [h]⟩

instance : IsTrans KeyFile sortKeyLE :=
  ⟨fun a b c h1 h2 => by
    unfold sortKeyLE natListLE at *
    simp only [Bool.or_eq_true, beq_iff_eq] at h1 h2 ⊢
    rcases h1 with h1 | h1
    · rcases h2 with h2 | h2
      · exact Or.inl (natListLt_trans _ _ _ h1 h2)
      · exact Or.inl (h2 ▸ h1)
    · rw [h1]; exact h2⟩




theorem tsLE_mono {t : Option Int} {r1 r2 : Int} (h : tsLE t r1 = true) (h12 : r1 ≤ r2) :
    tsLE t r2 = true := by
  cases t with
  | none => simp [tsLE] at h
  | some d => simp [tsLE] at h ⊢; omega

theorem tsGT_anti {t : Option Int} {r1 r2 : Int} (h : tsGT t r1 = false) (h12 : r1 ≤ r2) :
    tsGT t r2 = false := by
  cases t with
  | none => simp [tsGT]
  | some d => simp [tsGT] at h ⊢; omega

theorem state_mem_six (k : KeyFile) (ref : Int) :
    k.state ref = "DEL" ∨ k.state ref = "INAC" ∨ k.state ref = "ACT" ∨
      k.state ref = "PUB" ∨ k.state ref = "FUT" ∨ k.state ref = "" := by
  unfold KeyFile.state
  split_ifs <;> simp

/-- Claim C2: `state` is the strict priority cascade DEL → INAC → ACT → PUB →
FUT → unknown (the source's empty string), each milestone checked only when
the more terminal ones do not apply; in particular a key with only
`inactivate` and `delete` set, past `inactivate` but not yet `delete`,
reports INAC, and a key with `publish < activate < inactivate < delete` is
ACT at `activate` and at `inactivate - 1` and INAC at exactly `inactivate`. -/
theorem claim_C2_state_cascade (k : KeyFile) (ref : Int) :
    (∀ d, k.d_delete = some d → d ≤ ref → k.state ref = "DEL") ∧
    (tsLE k.d_delete ref = false →
      ∀ i, k.d_inactive = some i → i ≤ ref → k.state ref = "INAC") ∧
    (tsLE k.d_delete ref = false → tsLE k.d_inactive ref = false →
      ∀ a, k.d_active = some a → a ≤ ref → k.state ref = "ACT") ∧
    (tsLE k.d_delete ref = false → tsLE k.d_inactive ref = false →
      tsLE k.d_active ref = false →
      ∀ p, k.d_publish = some p → p ≤ ref → k.state ref = "PUB") ∧
    (tsLE k.d_delete ref = false → tsLE k.d_inactive ref = false →
      tsLE k.d_active ref = false → tsLE k.d_publish ref = false →
      ∀ c, k.d_create = some c → ref < c → k.state ref = "FUT") ∧
    (tsLE k.d_delete ref = false → tsLE k.d_inactive ref = false →
      tsLE k.d_active ref = false → tsLE k.d_publish ref = false →
      tsGT k.d_create ref = false → k.state ref = "") ∧
    (∀ i d, k.d_publish = none → k.d_active = none →
      k.d_inactive = some i → k.d_delete = some d → i ≤ ref → ref < d →
      k.state ref = "INAC") ∧
    (∀ p a i d, k.d_publish = some p → k.d_active = some a →
      k.d_inactive = some i → k.d_delete = some d →
      p < a → a < i → i < d →
      k.state a = "ACT" ∧ k.state (i - 1) = "ACT" ∧ k.state i = "INAC") := by
  refine ⟨?_, ?_, ?_, ?_, ?_, ?_, ?_, ?_⟩
  · intro d hd hle
    unfold KeyFile.state
    rw [hd]
    simp [tsLE, hle]
  · intro hdel i hi hle
    unfold KeyFile.state
    rw [hdel, hi]
    simp [tsLE, hle]
  · intro hdel hinac a ha hle
    unfold KeyFile.state
    rw [hdel, hinac, ha]
    simp [tsLE, hle]
  · intro hdel hinac hact p hp hle
    unfold KeyFile.state
    rw [hdel, hinac, hact, hp]
    simp [tsLE, hle]
  · intro hdel hinac hact hpub c hc hgt
    unfold KeyFile.state
    rw [hdel, hinac, hact, hpub, hc]
    simp [tsGT, hgt]
  · intro hdel hinac hact hpub hcre
    unfold KeyFile.state
    rw [hdel, hinac, hact, hpub, hcre]
    simp
  · intro i d hp ha hi hd hle hlt
    unfold KeyFile.state
    rw [hi, hd]
    simp only [tsLE]
    split_ifs with h1 h2 <;> simp_all <;> omega
  · intro p a i d hp ha hi hd hpa hai hid
    refine ⟨?_, ?_, ?_⟩ <;>
      (unfold KeyFile.state
       rw [hp, ha, hi, hd]
       simp only [tsLE]
       split_ifs with h1 h2 h3 <;> simp_all <;> omega)

/-- Witness for C2 at a concrete key with `publish < activate < inactivate <
delete`: `0 < 10 < 20 < 30`. -/
theorem claim_C2_state_cascade_witness :
    (⟨"z.", "ZSK", 13, 1, none, some 0, some 10, some 20, some 30⟩ : KeyFile).state 10 = "ACT" ∧
    (⟨"z.", "ZSK", 13, 1, none, some 0, some 10, some 20, some 30⟩ : KeyFile).state 19 = "ACT" ∧
    (⟨"z.", "ZSK", 13, 1, none, some 0, some 10, some 20, some 30⟩ : KeyFile).state 20 = "INAC" := by
  have h := (claim_C2_state_cascade
    (⟨"z.", "ZSK", 13, 1, none, some 0, some 10, some 20, some 30⟩ : KeyFile) 0).2.2.2.2.2.2.2
    0 10 20 30 rfl rfl rfl rfl (by decide) (by decide) (by decide)
  exact ⟨h.1, by simpa using h.2.1, h.2.2⟩

theorem insertionSort_eq_self_iff_chain (l : List Int) :
    List.insertionSort (· ≤ ·) l = l ↔ List.Chain' (· ≤ ·) l := by
  constructor
  · intro h
    rw [List.chain'_iff_pairwise]
    have := List.sorted_insertionSort (α := Int) (· ≤ ·) l
    rw [h] at this
    exact this
  · intro h
    exact List.Sorted.insertionSort_eq ((List.chain'_iff_pairwise).mp h)

theorem find?_first_gt {l : List Int} {ref t : Int}
    (hl : List.Pairwise (· ≤ ·) l)
    (h : l.find? (fun x => decide (ref < x)) = some t) :
    t ∈ l ∧ ref < t ∧ ∀ u ∈ l, ref < u → t ≤ u := by
  induction l with
  | nil => simp at h
  | cons a as ih =>
    rcases List.pairwise_cons.mp hl with ⟨hall, htail⟩
    by_cases hcond : ref < a
    · rw [List.find?_cons_of_pos _ (by simpa using hcond)] at h
      cases h
      refine ⟨List.mem_cons_self _ _, hcond, ?_⟩
      intro u hu _
      rcases List.mem_cons.mp hu with rfl | hu
      · exact le_refl _
      · exact hall u hu
    · rw [List.find?_cons_of_neg _ (by simpa using hcond)] at h
      rcases ih htail h with ⟨hmem, hgt, hmin⟩
      refine ⟨List.mem_cons_of_mem _ hmem, hgt, ?_⟩
      intro u hu hru
      rcases List.mem_cons.mp hu with rfl | hu
      · exact absurd hru hcond
      · exact hmin u hu hru

/-- Claim C6: `next_change` fails exactly when the present timestamps among
publish/activate/inactivate/delete are not non-decreasing in that order;
otherwise it returns the earliest present timestamp strictly after `ref`,
or `none` when all have passed.  A key with `inactivate > delete` fails. -/
theorem claim_C6_next_change (k : KeyFile) (ref : Int) :
    ((∃ e, k.next_change ref = .error e) ↔ ¬ List.Chain' (· ≤ ·) k.assigned) ∧
    (∀ t, k.next_change ref = .ok (some t) →
      t ∈ k.assigned ∧ ref < t ∧ ∀ u ∈ k.assigned, ref < u → t ≤ u) ∧
    (k.next_change ref = .ok none → ∀ u ∈ k.assigned, u ≤ ref) ∧
    (∀ i d, k.d_inactive = some i → k.d_delete = some d → d < i →
      ∃ e, k.next_change ref = .error e) := by
  refine ⟨?_, ?_, ?_, ?_⟩
  · unfold KeyFile.next_change
    split_ifs with hs
    · simp only [insertionSort_eq_self_iff_chain] at hs
      constructor
      · rintro ⟨e, he⟩
        exact absurd he (by simp)
      · intro hc
        exact absurd hs hc
    · simp only [insertionSort_eq_self_iff_chain] at hs
      constructor
      · intro _
        exact hs
      · intro _
        exact ⟨_, rfl⟩
  · intro t ht
    unfold KeyFile.next_change at ht
    split_ifs at ht with hs
    · simp only [Except.ok.injEq] at ht
      have hp : List.Pairwise (· ≤ ·) k.assigned :=
        (List.chain'_iff_pairwise).mp ((insertionSort_eq_self_iff_chain _).mp hs)
      exact find?_first_gt hp ht
  · intro h u hu
    unfold KeyFile.next_change at h
    split_ifs at h with hs
    · simp only [Except.ok.injEq] at h
      have := List.find?_eq_none.mp h u hu
      simp at this
      omega
  · intro i d hi hd hlt
    have hsuff : [i, d] <:+ k.assigned := by
      unfold KeyFile.assigned
      rw [hi, hd]
      rcases k.d_publish with _ | p <;> rcases k.d_active with _ | a
      · exact ⟨[], by simp⟩
      · exact ⟨[a], by simp⟩
      · exact ⟨[p], by simp⟩
      · exact ⟨[p, a], by simp⟩
    unfold KeyFile.next_change
    split_ifs with hs
    · exfalso
      have hc := (insertionSort_eq_self_iff_chain _).mp hs
      have := (hc.suffix hsuff)
      simp [List.chain'_cons] at this
      omega
    · exact ⟨_, rfl⟩

/-- Witness for C6 at a concrete key: consistent timestamps return the next
change, and `inactivate > delete` fails. -/
theorem claim_C6_next_change_witness :
    ((⟨"z.", "ZSK", 13, 1, none, some 0, some 10, some 20, some 30⟩ : KeyFile).next_change 10
       = .ok (some 20)) ∧
    (∃ e, (⟨"z.", "ZSK", 13, 1, none, none, none, some 100, some 90⟩ : KeyFile).next_change 10
       = .error e) := by
  constructor
  · have h := (claim_C6_next_change
      (⟨"z.", "ZSK", 13, 1, none, some 0, some 10, some 20, some 30⟩ : KeyFile) 10).2.1
    exact rfl
  · exact (claim_C6_next_change
      (⟨"z.", "ZSK", 13, 1, none, none, none, some 100, some 90⟩ : KeyFile) 10).2.2.2
      100 90 rfl rfl (by decide)

theorem state_rank_mono (k : KeyFile) {r1 r2 : Int} (h12 : r1 ≤ r2) :
    lifecycleRank (k.state r1) ≤ lifecycleRank (k.state r2) := by
  unfold KeyFile.state
  by_cases hd : tsLE k.d_delete r1 = true
  · rw [if_pos hd, if_pos (tsLE_mono hd h12)]
  · rw [if_neg hd]
    by_cases hi : tsLE k.d_inactive r1 = true
    · rw [if_pos hi]
      by_cases hd2 : tsLE k.d_delete r2 = true
      · rw [if_pos hd2]
        simp [lifecycleRank]
      · rw [if_neg hd2, if_pos (tsLE_mono hi h12)]
    · rw [if_neg hi]
      by_cases ha : tsLE k.d_active r1 = true
      · rw [if_pos ha]
        by_cases hd2 : tsLE k.d_delete r2 = true
        · rw [if_pos hd2]; simp [lifecycleRank]
        · rw [if_neg hd2]
          by_cases hi2 : tsLE k.d_inactive r2 = true
          · rw [if_pos hi2]; simp [lifecycleRank]
          · rw [if_neg hi2, if_pos (tsLE_mono ha h12)]
      · rw [if_neg ha]
        by_cases hp : tsLE k.d_publish r1 = true
        · rw [if_pos hp]
          by_cases hd2 : tsLE k.d_delete r2 = true
          · rw [if_pos hd2]; simp [lifecycleRank]
          · rw [if_neg hd2]
            by_cases hi2 : tsLE k.d_inactive r2 = true
            · rw [if_pos hi2]; simp [lifecycleRank]
            · rw [if_neg hi2]
              by_cases ha2 : tsLE k.d_active r2 = true
              · rw [if_pos ha2]; simp [lifecycleRank]
              · rw [if_neg ha2, if_pos (tsLE_mono hp h12)]
        · rw [if_neg hp]
          by_cases hc : tsGT k.d_create r1 = true
          · rw [if_pos hc]
            simp [lifecycleRank]
          · rw [if_neg hc]
            have hc2 : tsGT k.d_create r2 = false := tsGT_anti (by simpa using hc) h12
            split_ifs with g1 g2 g3 g4 g5 <;> simp_all [lifecycleRank]

/-- Claim C7: for keys whose present timestamps respect the ordering
invariant, `state` is total (always one of the six states, UNKNOWN being the
source's empty string) and monotone in the reference time: advancing the
reference time never moves a key to an earlier lifecycle state. -/
theorem claim_C7_state_total_monotone (k : KeyFile) :
    (∀ ref : Int, k.state ref = "DEL" ∨ k.state ref = "INAC" ∨ k.state ref = "ACT" ∨
      k.state ref = "PUB" ∨ k.state ref = "FUT" ∨ k.state ref = "") ∧
    (List.Chain' (· ≤ ·) k.assigned →
      ∀ r1 r2 : Int, r1 ≤ r2 →
        lifecycleRank (k.state r1) ≤ lifecycleRank (k.state r2)) := by
  exact ⟨fun ref => state_mem_six k ref, fun _ _ _ h12 => state_rank_mono k h12⟩

/-- Witness for C7 at a concrete key whose timestamps respect the invariant. -/
theorem claim_C7_state_total_monotone_witness :
    List.Chain' (· ≤ ·)
      (⟨"z.", "ZSK", 13, 1, some (-5), some 0, some 10, some 20, some 30⟩ : KeyFile).assigned ∧
    lifecycleRank ((⟨"z.", "ZSK", 13, 1, some (-5), some 0, some 10, some 20, some 30⟩ :
      KeyFile).state (-10)) ≤
    lifecycleRank ((⟨"z.", "ZSK", 13, 1, some (-5), some 0, some 10, some 20, some 30⟩ :
      KeyFile).state 35) := by
  have hc : List.Chain' (· ≤ ·)
      (⟨"z.", "ZSK", 13, 1, some (-5), some 0, some 10, some 20, some 30⟩ : KeyFile).assigned := by
    show List.Chain' (· ≤ ·) ([some (0:Int), some 10, some 20, some 30].filterMap id)
    norm_num [List.filterMap_cons, List.chain'_cons]
  refine ⟨hc, ?_⟩
  exact (claim_C7_state_total_monotone _).2 hc (-10) 35 (by norm_num)

/-! ## Lemmas about the `groupby_freeze` model -/

section GroupBy

variable {α β : Type} [DecidableEq β] {f : α → β}

theorem mem_of_getLast?_eq_some {l : List α} {x : α} (h : l.getLast? = some x) :
    x ∈ l := by
  have hx : x ∈ l.getLast? := by rw [h]; rfl
  rcases List.mem_getLast?_eq_getLast hx with ⟨hne, rfl⟩
  exact List.getLast_mem hne

theorem groupbyRuns_flatten (f : α → β) :
    ∀ l : List α, (groupbyRuns f l).flatMap (fun p => p.2) = l := by
  intro l
  induction l with
  | nil => rfl
  | cons a l ih =>
    unfold groupbyRuns
    rcases h : groupbyRuns f l with _ | ⟨⟨b, g⟩, rest⟩ <;> rw [h] at ih
    · simp at ih
      simp [ih]
    · simp only [List.flatMap_cons] at ih
      by_cases hab : f a = b
      · simp [hab, ih]
      · simp [hab, ih]

theorem groupbyRuns_group_ne_nil :
    ∀ {l : List α} {p : β × List α}, p ∈ groupbyRuns f l → p.2 ≠ [] := by
  intro l
  induction l with
  | nil => intro p hp; simp [groupbyRuns] at hp
  | cons a l ih =>
    intro p hp
    unfold groupbyRuns at hp
    rcases h : groupbyRuns f l with _ | ⟨⟨b, g⟩, rest⟩ <;> rw [h] at hp
    · simp at hp
      subst hp
      simp
    · by_cases hab : f a = b <;> simp only [hab, if_true, if_false, reduceIte] at hp
      · rcases List.mem_cons.mp hp with rfl | hp
        · simp
        · exact ih (h ▸ List.mem_cons_of_mem _ hp)
      · rcases List.mem_cons.mp hp with rfl | hp
        · simp
        · exact ih (h ▸ hp)

theorem groupbyRuns_group_key :
    ∀ {l : List α} {p : β × List α}, p ∈ groupbyRuns f l → ∀ x ∈ p.2, f x = p.1 := by
  intro l
  induction l with
  | nil => intro p hp; simp [groupbyRuns] at hp
  | cons a l ih =>
    intro p hp x hx
    unfold groupbyRuns at hp
    rcases h : groupbyRuns f l with _ | ⟨⟨b, g⟩, rest⟩ <;> rw [h] at hp
    · simp at hp
      subst hp
      simp at hx
      subst hx
      rfl
    · by_cases hab : f a = b <;> simp only [hab, if_true, if_false, reduceIte] at hp
      · rcases List.mem_cons.mp hp with rfl | hp
        · rcases List.mem_cons.mp hx with rfl | hx
          · exact hab
          · have := ih (h ▸ List.mem_cons_self (b, g) rest) x hx
            simpa [hab] using this
        · exact ih (h ▸ List.mem_cons_of_mem _ hp) x hx
      · rcases List.mem_cons.mp hp with rfl | hp
        · simp at hx
          subst hx
          rfl
        · exact ih (h ▸ hp) x hx

theorem groupbyRuns_group_subset :
    ∀ {l : List α} {p : β × List α}, p ∈ groupbyRuns f l → ∀ x ∈ p.2, x ∈ l := by
  intro l p hp x hx
  have := groupbyRuns_flatten f l
  rw [← this]
  exact List.mem_flatMap.mpr ⟨p, hp, hx⟩

theorem groupbyRuns_filter_flatten (f : α → β) (b : β) :
    ∀ l : List α,
      ((groupbyRuns f l).filter (fun p => decide (p.1 = b))).flatMap (fun p => p.2) =
        l.filter (fun x => decide (f x = b)) := by
  intro l
  induction l with
  | nil => rfl
  | cons a l ih =>
    unfold groupbyRuns
    rcases h : groupbyRuns f l with _ | ⟨⟨c, g⟩, rest⟩ <;> rw [h] at ih
    · by_cases hab : f a = b
      · simp [List.filter_cons, hab, ← ih]
      · simp [List.filter_cons, hab, ← ih]
    · by_cases hac : f a = c
      · simp only [hac, if_true, reduceIte]
        by_cases hab : f a = b
        · have hcb : c = b := hac ▸ hab
          simp only [List.filter_cons, hab, hcb, decide_True, if_pos trivial] at ih ⊢
          simp only [List.flatMap_cons] at ih ⊢
          simp [← ih]
        · have hcb : ¬(c = b) := fun hh => hab (hac ▸ hh)
          simp only [List.filter_cons, hab, hcb, decide_False] at ih ⊢
          simpa using ih
      · simp only [hac, if_false, reduceIte]
        by_cases hab : f a = b
        · simp [List.filter_cons, hab, ← ih]
        · simp [List.filter_cons, hab, ← ih]

theorem dictGet_mem {runs : List (β × List α)} {b : β} {g : List α}
    (h : dictGet runs b = some g) : (b, g) ∈ runs := by
  unfold dictGet at h
  rcases hl : (runs.filter (fun p => decide (p.1 = b))).getLast? with _ | p
  · rw [hl] at h; simp at h
  · rw [hl] at h
    simp at h
    have hpmem := mem_of_getLast?_eq_some hl
    have hpkey : p.1 = b := by simpa using (List.mem_filter.mp hpmem).2
    have hpg : p = (b, g) := by
      rcases p with ⟨pb, pg⟩
      simp_all
    rw [← hpg]
    exact (List.mem_filter.mp hpmem).1

end GroupBy


section GroupByNodup

variable {α β : Type} [DecidableEq β] {f : α → β}

theorem filter_key_singleton :
    ∀ {runs : List (β × List α)}, ((runs.map Prod.fst).Nodup) → ∀ b : β,
      runs.filter (fun p => decide (p.1 = b)) = [] ∨
      ∃ p : β × List α, p.1 = b ∧ runs.filter (fun p => decide (p.1 = b)) = [p] := by
  intro runs
  induction runs with
  | nil => intro _ b; exact Or.inl rfl
  | cons r rest ih =>
    intro hnd b
    simp only [List.map_cons, List.nodup_cons] at hnd
    by_cases hr : r.1 = b
    · refine Or.inr ⟨r, hr, ?_⟩
      rw [List.filter_cons_of_pos (by simpa using hr)]
      have : rest.filter (fun p => decide (p.1 = b)) = [] := by
        apply List.filter_eq_nil.mpr
        intro p hp
        simp only [decide_eq_true_eq]
        intro hpb
        exact hnd.1 (by rw [← hr, ← hpb] at *; exact List.mem_map_of_mem Prod.fst hp)
      rw [this]
    · rw [List.filter_cons_of_neg (by simpa using hr)]
      exact ih hnd.2 b

theorem dictGet_eq_filter_of_nodup {l : List α}
    (hnd : ((groupbyRuns f l).map Prod.fst).Nodup) {b : β} {g : List α}
    (h : dictGet (groupbyRuns f l) b = some g) :
    g = l.filter (fun x => decide (f x = b)) := by
  rw [← groupbyRuns_filter_flatten f b l]
  rcases filter_key_singleton hnd b with hnil | ⟨p, hpb, hone⟩
  · unfold dictGet at h
    rw [hnil] at h
    simp at h
  · unfold dictGet at h
    rw [hone] at h
    simp at h
    rw [hone]
    simp [h]

theorem dictGet_of_filter_eq_nil {l : List α} {b : β}
    (hf : l.filter (fun x => decide (f x = b)) = []) :
    dictGet (groupbyRuns f l) b = none := by
  have hflat := groupbyRuns_filter_flatten f b l
  rw [hf] at hflat
  have hnil : (groupbyRuns f l).filter (fun p => decide (p.1 = b)) = [] := by
    rcases hrf : (groupbyRuns f l).filter (fun p => decide (p.1 = b)) with _ | ⟨p, rest⟩
    · exact hrf
    · exfalso
      rw [hrf] at hflat
      simp only [List.flatMap_cons] at hflat
      have hpmem : p ∈ groupbyRuns f l :=
        (List.mem_filter.mp (hrf ▸ List.mem_cons_self p rest)).1
      have := groupbyRuns_group_ne_nil (f := f) hpmem
      rcases hg : p.2 with _ | ⟨x, xs⟩
      · exact this hg
      · rw [hg] at hflat
        simp at hflat
  unfold dictGet
  rw [hnil]
  rfl

theorem uniqFirst_of_nodup : ∀ {l : List β}, l.Nodup → uniqFirst l = l := by
  intro l
  induction l with
  | nil => intro _; rfl
  | cons b r ih =>
    intro hnd
    rcases List.nodup_cons.mp hnd with ⟨hb, hr⟩
    unfold uniqFirst
    rw [ih hr]
    congr 1
    apply List.filter_eq_self.mpr
    intro x hx
    simp only [decide_eq_true_eq]
    intro hxb
    exact hb (hxb ▸ hx)

theorem dictItems_sound {runs : List (β × List α)} {p : β × List α}
    (h : p ∈ dictItems runs) : dictGet runs p.1 = some p.2 := by
  unfold dictItems at h
  rcases List.mem_filterMap.mp h with ⟨b, _, hb⟩
  rcases hg : dictGet runs b with _ | g
  · rw [hg] at hb; simp at hb
  · rw [hg] at hb
    simp at hb
    rw [← hb]
    simpa using hg

theorem dictItems_eq_of_nodup :
    ∀ {runs : List (β × List α)}, ((runs.map Prod.fst).Nodup) → dictItems runs = runs := by
  intro runs
  induction runs with
  | nil => intro _; rfl
  | cons r rest ih =>
    intro hnd
    simp only [List.map_cons, List.nodup_cons] at hnd
    unfold dictItems
    rw [uniqFirst_of_nodup (by simp only [List.map_cons] at *; exact List.nodup_cons.mpr hnd)]
    simp only [List.map_cons, List.filterMap_cons]
    have hget : dictGet (r :: rest) r.1 = some r.2 := by
      unfold dictGet
      rw [List.filter_cons_of_pos (by simp)]
      have : rest.filter (fun p => decide (p.1 = r.1)) = [] := by
        apply List.filter_eq_nil.mpr
        intro p hp
        simp only [decide_eq_true_eq]
        intro hpb
        exact hnd.1 (hpb ▸ List.mem_map_of_mem Prod.fst hp)
      rw [this]
      rfl
    rw [hget]
    simp only [Option.map_some']
    congr 1
    have hcongr : (rest.map Prod.fst).filterMap
          (fun b => (dictGet (r :: rest) b).map (fun g => (b, g))) =
        (rest.map Prod.fst).filterMap (fun b => (dictGet rest b).map (fun g => (b, g))) := by
      apply List.filterMap_congr
      intro b hb
      have hbne : ¬(r.1 = b) := fun hh => hnd.1 (hh ▸ hb)
      unfold dictGet
      rw [List.filter_cons_of_neg (by simpa using hbne)]
    rw [hcongr]
    have := ih hnd.2
    unfold dictItems at this
    rw [uniqFirst_of_nodup hnd.2] at this
    exact this

end GroupByNodup

section GroupBySorted

variable {α β : Type} [LinearOrder β] {f : α → β}

theorem groupbyRuns_head_key {a : α} {l : List α} {b : β} {g : List α}
    {rest : List (β × List α)} (h : groupbyRuns f (a :: l) = (b, g) :: rest) :
    b = f a := by
  unfold groupbyRuns at h
  rcases hl : groupbyRuns f l with _ | ⟨⟨c, g'⟩, rest'⟩ <;> rw [hl] at h
  · simp only [List.cons.injEq, Prod.mk.injEq] at h
    exact h.1.1.symm
  · have h' : (if f a = c then ((f a, a :: g') :: rest')
        else ((f a, [a]) :: (c, g') :: rest')) = (b, g) :: rest := h
    by_cases hac : f a = c
    · rw [if_pos hac] at h'
      simp only [List.cons.injEq, Prod.mk.injEq] at h'
      exact h'.1.1.symm
    · rw [if_neg hac] at h'
      simp only [List.cons.injEq, Prod.mk.injEq] at h'
      exact h'.1.1.symm

theorem groupbyRuns_keys_chain :
    ∀ {l : List α}, List.Pairwise (fun x y => f x ≤ f y) l →
      List.Chain' (· < ·) ((groupbyRuns f l).map Prod.fst) := by
  intro l
  induction l with
  | nil => intro _; simp [groupbyRuns]
  | cons a l ih =>
    intro hp
    rcases List.pairwise_cons.mp hp with ⟨hall, htail⟩
    unfold groupbyRuns
    rcases h : groupbyRuns f l with _ | ⟨⟨b, g⟩, rest⟩
    · simp
    · have ihc := ih htail
      rw [h] at ihc
      by_cases hab : f a = b
      · simp only [hab, if_true, reduceIte, List.map_cons]
        simpa using ihc
      · simp only [hab, if_false, reduceIte, List.map_cons]
        rcases l with _ | ⟨x, l'⟩
        · simp [groupbyRuns] at h
        · have hbx : b = f x := groupbyRuns_head_key h
          have hax : f a ≤ f x := hall x (List.mem_cons_self x l')
          refine List.chain'_cons.mpr ⟨?_, by simpa using ihc⟩
          rw [hbx] at hab ⊢
          exact lt_of_le_of_ne hax hab

theorem groupbyRuns_keys_nodup {l : List α}
    (hp : List.Pairwise (fun x y => f x ≤ f y) l) :
    ((groupbyRuns f l).map Prod.fst).Nodup := by
  have hc := groupbyRuns_keys_chain hp
  rw [List.chain'_iff_pairwise] at hc
  exact hc.imp (fun hlt => ne_of_lt hlt)

end GroupBySorted

/-! ## Rotation planner lemmas -/

theorem selActives_sound {akeys : List KeyFile} {ref : Int} {k : KeyFile}
    (h : k ∈ selActives akeys ref) : k ∈ akeys ∧ k.state ref = "ACT" := by
  unfold selActives at h
  rcases hg : dictGet (groupbyRuns (fun k => k.state ref) akeys) "ACT" with _ | g
  · rw [hg] at h; simp at h
  · rw [hg] at h
    simp only [Option.getD_some] at h
    have hmem := dictGet_mem hg
    exact ⟨groupbyRuns_group_subset hmem k h, groupbyRuns_group_key hmem k h⟩

theorem groupPlan_eq_flatMap (akeys : List KeyFile) (post ref : Int) :
    groupPlan akeys post ref =
      (List.insertionSort (fun a b : KeyFile => a.d_inactive.getD 0 ≤ b.d_inactive.getD 0)
        (selActives akeys ref)).flatMap
        (checkActive akeys (pickTemplate akeys) post) := by
  unfold groupPlan selActives
  rcases hg : dictGet (groupbyRuns (fun k => k.state ref) akeys) "ACT" with _ | g <;>
    rw [hg] <;> simp

theorem mem_groupPlan_iff {akeys : List KeyFile} {post ref : Int} {act : RotationAction} :
    act ∈ groupPlan akeys post ref ↔
      ∃ active ∈ selActives akeys ref,
        act ∈ checkActive akeys (pickTemplate akeys) post active := by
  rw [groupPlan_eq_flatMap]
  rw [List.mem_flatMap]
  constructor
  · rintro ⟨a, ha, hact⟩
    exact ⟨a, (List.perm_insertionSort _ _).mem_iff.mp ha, hact⟩
  · rintro ⟨a, ha, hact⟩
    exact ⟨a, (List.perm_insertionSort _ _).mem_iff.mpr ha, hact⟩

theorem mem_planCore_iff {keys : List KeyFile} {post ref : Int} {act : RotationAction} :
    act ∈ planCore keys post ref ↔
      ∃ p ∈ dictItems (groupbyRuns (fun k => k.algo) keys),
        act ∈ groupPlan p.2 post ref := by
  unfold planCore
  exact List.mem_flatMap

theorem mem_checkActive_set_times {akeys : List KeyFile} {template : KeyFile}
    {post : Int} {active k : KeyFile} {nd : Int} :
    RotationAction.set_times k nd ∈ checkActive akeys template post active ↔
      k = active ∧ nd = active.d_inactive.getD 0 + post ∧
        (active.d_delete = none ∨
          active.d_delete.getD 0 > active.d_inactive.getD 0 + 1 + post) := by
  unfold checkActive
  rw [List.mem_append]
  constructor
  · rintro (h | h)
    · split_ifs at h with hcb
      · simp only [List.mem_singleton, RotationAction.set_times.injEq] at h
        refine ⟨h.1, h.2, ?_⟩
        simpa only [Bool.or_eq_true, Option.isNone_iff_eq_none, decide_eq_true_eq] using hcb
      · simp at h
    · split_ifs at h <;> simp at h
  · rintro ⟨rfl, hnd, hcond⟩
    left
    have hcb : (k.d_delete.isNone ||
        decide (k.d_delete.getD 0 > k.d_inactive.getD 0 + 1 + post)) = true := by
      simp only [Bool.or_eq_true, Option.isNone_iff_eq_none, decide_eq_true_eq]
      exact hcond
    rw [if_pos hcb]
    simp [hnd]

theorem mem_checkActive_make_successor {akeys : List KeyFile} {template : KeyFile}
    {post : Int} {active t : KeyFile} {aat : Int} :
    RotationAction.make_successor t aat ∈ checkActive akeys template post active ↔
      t = template ∧ aat = active.d_inactive.getD 0 ∧
        (akeys.filter
          (fun k => k.state (active.d_inactive.getD 0 + 1) == "ACT")).isEmpty := by
  unfold checkActive
  rw [List.mem_append]
  constructor
  · rintro (h | h)
    · split_ifs at h <;> simp at h
    · split_ifs at h with hcb
      · simp only [List.mem_singleton, RotationAction.make_successor.injEq] at h
        exact ⟨h.1, h.2, hcb⟩
      · simp at h
  · rintro ⟨rfl, rfl, hc⟩
    right
    rw [if_pos hc]
    simp

/-- Claim C1 (code bug): the planner is meant to consider *every* currently
active key (shell.py's own comment, lines 276–279), but `groupby_freeze`
builds a dict from `itertools.groupby` runs, so when the ACT keys are not
consecutive in the (keyid-sorted) listing, only the *last* run of ACT keys
survives.  Here keys 1 (ACT, inactive at 100) and 3 (ACT, inactive at 90)
sandwich key 2 (INAC), so `by_state["ACT"]` retains only key 3: key 1 gets
neither its deletion-time fix nor a successor (no key is ACT at 101), yet
the plan contains only the `set_times` entry for key 3. -/
theorem claim_C1_active_key_skipped :
    main_rotate
      [⟨"z.", "ZSK", 13, 1, none, none, some 0, some 100, none⟩,
       ⟨"z.", "ZSK", 13, 2, none, none, some 0, some 10, none⟩,
       ⟨"z.", "ZSK", 13, 3, none, none, some 40, some 90, none⟩]
      "ZSK" 604800 1209600 604800 604800 50 =
      .ok [RotationAction.set_times
            ⟨"z.", "ZSK", 13, 3, none, none, some 40, some 90, none⟩ (90 + 604800)] := by
  rfl

/-- Claim C8 counterexample: an invocation with a negative `prepublish`
duration but no qualifying key returns successfully with an empty plan —
the interval sanity checks (shell.py 248–258) sit *after* the early
`return 0` for an empty qualifying key set (shell.py 239–241), so the
claimed unconditional `InvalidInterval` failure does not happen. -/
theorem claim_C8_counterexample :
    main_rotate [] "ZSK" (-1) 5 1 1 0 = .ok [] := by
  rfl

/-- Claim C8 (amended): requesting KSK rotation always fails, and an
invocation with a negative duration or `overlap ≥ lifetime` fails with the
corresponding interval error *provided* at least one qualifying key
(matching type, `Inactive` set, not DEL) survives the filter; with no
qualifying keys the invocation returns an empty plan before validation. -/
theorem claim_C8_validation (keys0 : List KeyFile) (prepub life post overl ref : Int) :
    (main_rotate keys0 "KSK" prepub life post overl ref =
      .error "Only ZSKs can be rotated.") ∧
    ((qualifyingKeys keys0 "ZSK" ref).isEmpty = false →
      (prepub < 0 ∨ life < 0 ∨ post < 0 ∨ overl < 0 ∨ overl ≥ life) →
      ∃ e, main_rotate keys0 "ZSK" prepub life post overl ref = .error e) := by
  constructor
  · rfl
  · intro hne hbad
    unfold main_rotate
    rw [if_neg (by simp)]
    rw [if_neg (by simp [hne])]
    split_ifs with h1 h2 h3 h4 h5
    · exact ⟨_, rfl⟩
    · exact ⟨_, rfl⟩
    · exact ⟨_, rfl⟩
    · exact ⟨_, rfl⟩
    · exact ⟨_, rfl⟩
    · exfalso
      rcases hbad with h | h | h | h | h <;> omega

/-- Witness for C8 at a concrete invocation: one qualifying ZSK key and a
negative pre-publication interval. -/
theorem claim_C8_validation_witness :
    (main_rotate [⟨"z.", "ZSK", 13, 1, none, none, some 0, some 100, none⟩]
      "KSK" (-1) 5 1 1 50 = .error "Only ZSKs can be rotated.") ∧
    ∃ e, main_rotate [⟨"z.", "ZSK", 13, 1, none, none, some 0, some 100, none⟩]
      "ZSK" (-1) 5 1 1 50 = .error e := by
  refine ⟨(claim_C8_validation _ (-1) 5 1 1 50).1, ?_⟩
  exact (claim_C8_validation
    [⟨"z.", "ZSK", 13, 1, none, none, some 0, some 100, none⟩] (-1) 5 1 1 50).2
    (by rfl) (by norm_num)

/-- Claim C4: for every key the planner considers (a member of the selected
active list of its algorithm group), a deletion adjustment is emitted iff the
key's delete timestamp is absent or later than `(inactivate + 1s) +
postpublish`, and every emitted adjustment carries the new deletion time
`inactivate + postpublish`. -/
theorem claim_C4_adjust_deletion (keys : List KeyFile) (post ref : Int)
    (p : Nat × List KeyFile)
    (hp : p ∈ dictItems (groupbyRuns (fun k => k.algo) keys))
    (k : KeyFile) (hk : k ∈ selActives p.2 ref) :
    ((∃ nd, RotationAction.set_times k nd ∈ planCore keys post ref) ↔
      (k.d_delete = none ∨ k.d_delete.getD 0 > k.d_inactive.getD 0 + 1 + post)) ∧
    (∀ nd, RotationAction.set_times k nd ∈ planCore keys post ref →
      nd = k.d_inactive.getD 0 + post) := by
  constructor
  · constructor
    · rintro ⟨nd, hmem⟩
      rcases mem_planCore_iff.mp hmem with ⟨q, _, hgp⟩
      rcases mem_groupPlan_iff.mp hgp with ⟨a, _, hca⟩
      rcases mem_checkActive_set_times.mp hca with ⟨rfl, _, hcond⟩
      exact hcond
    · intro hcond
      refine ⟨k.d_inactive.getD 0 + post, mem_planCore_iff.mpr ⟨p, hp, ?_⟩⟩
      refine mem_groupPlan_iff.mpr ⟨k, hk, ?_⟩
      exact mem_checkActive_set_times.mpr ⟨rfl, rfl, hcond⟩
  · intro nd hmem
    rcases mem_planCore_iff.mp hmem with ⟨q, _, hgp⟩
    rcases mem_groupPlan_iff.mp hgp with ⟨a, _, hca⟩
    rcases mem_checkActive_set_times.mp hca with ⟨rfl, hnd, _⟩
    exact hnd

/-- Witness for C4: a single active key with `inactivate = 100`, no delete
timestamp and `postpublish = 7d = 604800 s` yields the adjustment
`delete = 100 + 604800`. -/
theorem claim_C4_adjust_deletion_witness :
    RotationAction.set_times ⟨"z.", "ZSK", 13, 5, none, none, some 0, some 100, none⟩
        (100 + 604800) ∈
      planCore [⟨"z.", "ZSK", 13, 5, none, none, some 0, some 100, none⟩] 604800 50 := by
  have h := (claim_C4_adjust_deletion
    [⟨"z.", "ZSK", 13, 5, none, none, some 0, some 100, none⟩] 604800 50
    (13, [⟨"z.", "ZSK", 13, 5, none, none, some 0, some 100, none⟩])
    (by decide)
    ⟨"z.", "ZSK", 13, 5, none, none, some 0, some 100, none⟩
    (by decide)).1.mpr (Or.inl rfl)
  rcases h with ⟨nd, hmem⟩
  have hnd := (claim_C4_adjust_deletion
    [⟨"z.", "ZSK", 13, 5, none, none, some 0, some 100, none⟩] 604800 50
    (13, [⟨"z.", "ZSK", 13, 5, none, none, some 0, some 100, none⟩])
    (by decide)
    ⟨"z.", "ZSK", 13, 5, none, none, some 0, some 100, none⟩
    (by decide)).2 nd hmem
  simpa [hnd] using hmem

section GroupBySingle

variable {α β : Type} [DecidableEq β] {f : α → β}

theorem groupbyRuns_const {a : β} :
    ∀ {l : List α}, l ≠ [] → (∀ k ∈ l, f k = a) → groupbyRuns f l = [(a, l)] := by
  intro l
  induction l with
  | nil => intro h _; exact absurd rfl h
  | cons x l' ih =>
    intro _ hall
    unfold groupbyRuns
    cases l' with
    | nil =>
      simp [groupbyRuns, hall x (List.mem_cons_self x [])]
    | cons y l'' =>
      rw [ih (by simp) (fun k hk => hall k (List.mem_cons_of_mem x hk))]
      have hx : f x = a := hall x (List.mem_cons_self _ _)
      simp [hx]

theorem flatMap_nil_of_ne_nil {R : List (β × List α)}
    (hne : ∀ p ∈ R, p.2 ≠ []) (h : R.flatMap (fun p => p.2) = []) : R = [] := by
  cases R with
  | nil => rfl
  | cons p R' =>
    exfalso
    simp only [List.flatMap_cons, List.append_eq_nil] at h
    exact hne p (List.mem_cons_self _ _) h.1

theorem flatMap_singleton_of_ne_nil {R : List (β × List α)} {x : α}
    (hne : ∀ p ∈ R, p.2 ≠ []) (h : R.flatMap (fun p => p.2) = [x]) :
    ∃ b', R = [(b', [x])] := by
  cases R with
  | nil => simp at h
  | cons p R' =>
    rcases p with ⟨pb, pg⟩
    simp only [List.flatMap_cons] at h
    cases pg with
    | nil => exact absurd rfl (hne _ (List.mem_cons_self _ _))
    | cons y ys =>
      simp only [List.cons_append, List.cons.injEq] at h
      rcases h with ⟨rfl, h⟩
      have hys : ys = [] := by
        rcases List.append_eq_nil.mp h with ⟨h1, _⟩
        exact h1
      have hR' : R'.flatMap (fun p => p.2) = [] := (List.append_eq_nil.mp h).2
      have : R' = [] :=
        flatMap_nil_of_ne_nil (fun q hq => hne q (List.mem_cons_of_mem _ hq)) hR'
      subst this
      subst hys
      exact ⟨pb, rfl⟩

theorem dictGet_of_filter_singleton {l : List α} {b : β} {x : α}
    (hf : l.filter (fun y => decide (f y = b)) = [x]) :
    dictGet (groupbyRuns f l) b = some [x] := by
  have hflat := groupbyRuns_filter_flatten f b l
  rw [hf] at hflat
  have hne : ∀ p ∈ (groupbyRuns f l).filter (fun p => decide (p.1 = b)), p.2 ≠ [] :=
    fun p hp => groupbyRuns_group_ne_nil (List.mem_filter.mp hp).1
  rcases flatMap_singleton_of_ne_nil hne hflat with ⟨b', hb'⟩
  have hb'b : b' = b := by
    have : (b', [x]) ∈ (groupbyRuns f l).filter (fun p => decide (p.1 = b)) := by
      rw [hb']; exact List.mem_cons_self _ _
    simpa using (List.mem_filter.mp this).2
  unfold dictGet
  rw [hb', hb'b]
  rfl

end GroupBySingle

/-- Claim C3: in one algorithm group with exactly one currently-ACT key and
no key ACT one second after its inactivation, the plan contains exactly one
`make_successor`, whose activation point is the active key's `inactivate`,
and the successor timestamps computed for it satisfy
`activate = activateAt - overlap`, `publish = activate - prepublish`,
`inactivate = activate + lifetime`, `delete = inactivate + postpublish`. -/
theorem claim_C3_single_successor (keys0 : List KeyFile)
    (prepub life post overl ref : Int) (a : Nat) (kstar : KeyFile)
    (hv1 : 0 ≤ prepub) (hv2 : 0 ≤ life) (hv3 : 0 ≤ post) (hv4 : 0 ≤ overl)
    (hv5 : overl < life)
    (halgo : ∀ k ∈ qualifyingKeys keys0 "ZSK" ref, k.algo = a)
    (hact : (qualifyingKeys keys0 "ZSK" ref).filter
      (fun k => decide (k.state ref = "ACT")) = [kstar])
    (hnosucc : (qualifyingKeys keys0 "ZSK" ref).filter
      (fun k => k.state (kstar.d_inactive.getD 0 + 1) == "ACT") = []) :
    main_rotate keys0 "ZSK" prepub life post overl ref =
      .ok (planCore (qualifyingKeys keys0 "ZSK" ref) post ref) ∧
    (planCore (qualifyingKeys keys0 "ZSK" ref) post ref).filter
      (fun act => match act with
        | RotationAction.make_successor _ _ => true
        | RotationAction.set_times _ _ => false) =
      [RotationAction.make_successor (pickTemplate (qualifyingKeys keys0 "ZSK" ref))
        (kstar.d_inactive.getD 0)] ∧
    (make_successor_times (kstar.d_inactive.getD 0) prepub life post overl).2.1 =
      kstar.d_inactive.getD 0 - overl ∧
    (make_successor_times (kstar.d_inactive.getD 0) prepub life post overl).1 =
      (make_successor_times (kstar.d_inactive.getD 0) prepub life post overl).2.1 - prepub ∧
    (make_successor_times (kstar.d_inactive.getD 0) prepub life post overl).2.2.1 =
      (make_successor_times (kstar.d_inactive.getD 0) prepub life post overl).2.1 + life ∧
    (make_successor_times (kstar.d_inactive.getD 0) prepub life post overl).2.2.2 =
      (make_successor_times (kstar.d_inactive.getD 0) prepub life post overl).2.2.1 + post := by
  have hkmem : kstar ∈ qualifyingKeys keys0 "ZSK" ref := by
    have : kstar ∈ (qualifyingKeys keys0 "ZSK" ref).filter
        (fun k => decide (k.state ref = "ACT")) := by
      rw [hact]; exact List.mem_cons_self _ _
    exact (List.mem_filter.mp this).1
  have hne : qualifyingKeys keys0 "ZSK" ref ≠ [] := fun h => by
    rw [h] at hkmem; simp at hkmem
  have hplan : planCore (qualifyingKeys keys0 "ZSK" ref) post ref =
      groupPlan (qualifyingKeys keys0 "ZSK" ref) post ref := by
    unfold planCore
    rw [groupbyRuns_const hne halgo]
    rw [dictItems_eq_of_nodup (by simp)]
    simp
  have hsel : dictGet (groupbyRuns (fun k => k.state ref)
      (qualifyingKeys keys0 "ZSK" ref)) "ACT" = some [kstar] :=
    dictGet_of_filter_singleton hact
  have hgp : groupPlan (qualifyingKeys keys0 "ZSK" ref) post ref =
      checkActive (qualifyingKeys keys0 "ZSK" ref)
        (pickTemplate (qualifyingKeys keys0 "ZSK" ref)) post kstar := by
    unfold groupPlan
    rw [hsel]
    simp [List.insertionSort, List.orderedInsert]
  refine ⟨?_, ?_, rfl, rfl, rfl, rfl⟩
  · unfold main_rotate
    rw [if_neg (by simp)]
    rw [if_neg (by simp [hne])]
    rw [if_neg (by omega), if_neg (by omega), if_neg (by omega), if_neg (by omega),
      if_neg (by omega)]
  · rw [hplan, hgp]
    unfold checkActive
    rw [hnosucc]
    split_ifs <;> simp_all [List.filter]

/-- Witness for C3: a single active key (inactive at 100, no delete, no
successor) with `prepublish = 3`, `lifetime = 10`, `postpublish = 7`,
`overlap = 7` seconds produces exactly one `make_successor` at 100. -/
theorem claim_C3_single_successor_witness :
    (planCore (qualifyingKeys
        [⟨"z.", "ZSK", 13, 1, some 0, none, some 0, some 100, none⟩] "ZSK" 50) 7 50).filter
      (fun act => match act with
        | RotationAction.make_successor _ _ => true
        | RotationAction.set_times _ _ => false) =
      [RotationAction.make_successor ⟨"z.", "ZSK", 13, 1, some 0, none, some 0, some 100, none⟩
        100] := by
  have h := (claim_C3_single_successor
    [⟨"z.", "ZSK", 13, 1, some 0, none, some 0, some 100, none⟩] 3 10 7 7 50 13
    ⟨"z.", "ZSK", 13, 1, some 0, none, some 0, some 100, none⟩
    (by norm_num) (by norm_num) (by norm_num) (by norm_num) (by norm_num)
    (by decide) (by decide) (by decide)).2.1
  simpa using h

/-! ## Lemmas towards planner idempotence (C5) -/

theorem natListLt_append_left :
    ∀ (x u v : List Nat), natListLt (x ++ u) (x ++ v) = natListLt u v := by
  intro x
  induction x with
  | nil => intro u v; rfl
  | cons a x ih =>
    intro u v
    show natListLt (a :: (x ++ u)) (a :: (x ++ v)) = natListLt u v
    simp only [natListLt, ih, Nat.lt_irrefl, decide_False, beq_self_eq_true,
      Bool.true_and, Bool.false_or]

theorem natListLE_append_left (x u v : List Nat)
    (h : natListLE (x ++ u) (x ++ v) = true) : natListLE u v = true := by
  unfold natListLE at *
  rcases Bool.or_eq_true_iff.mp h with h | h
  · rw [natListLt_append_left] at h
    simp [h]
  · have hxx : x ++ u = x ++ v := by simpa using h
    have : u = v := List.append_cancel_left hxx
    simp [this]

theorem sortData_decomp (k : KeyFile) :
    k.sortData = (k.zone.data.map Char.toNat ++ [0] ++ k.type.data.map Char.toNat ++ [0]) ++
      [k.algo, k.keyid] := by
  unfold KeyFile.sortData
  simp

theorem sortKeyLE_algo_le {a b : KeyFile} (h : sortKeyLE a b)
    (hz : a.zone = b.zone) (ht : a.type = b.type) : a.algo ≤ b.algo := by
  unfold sortKeyLE at h
  rw [sortData_decomp, sortData_decomp, hz, ht] at h
  have h2 := natListLE_append_left _ _ _ h
  unfold natListLE natListLt at h2
  rcases Bool.or_eq_true_iff.mp h2 with h3 | h3
  · simp only [Bool.or_eq_true, Bool.and_eq_true, decide_eq_true_eq, beq_iff_eq] at h3
    rcases h3 with h3 | ⟨h3, _⟩
    · omega
    · omega
  · have : ([a.algo, a.keyid] : List Nat) = [b.algo, b.keyid] := by simpa using h3
    simp at this
    omega

theorem qualifyingKeys_pairwise (keys0 : List KeyFile) (ktype : String) (ref : Int) :
    List.Pairwise sortKeyLE (qualifyingKeys keys0 ktype ref) := by
  unfold qualifyingKeys listSorted
  have hs : List.Pairwise sortKeyLE (List.insertionSort sortKeyLE keys0) :=
    List.sorted_insertionSort sortKeyLE keys0
  exact List.Pairwise.sublist ((List.filter_sublist _).trans (List.filter_sublist _)) hs

theorem mem_qualifyingKeys {keys0 : List KeyFile} {ktype : String} {ref : Int}
    {k : KeyFile} :
    k ∈ qualifyingKeys keys0 ktype ref ↔
      k ∈ keys0 ∧ k.type = ktype ∧ k.d_inactive.isSome = true ∧ ¬(k.state ref = "DEL") := by
  unfold qualifyingKeys listSorted
  rw [List.mem_filter, List.mem_filter, (List.perm_insertionSort sortKeyLE keys0).mem_iff]
  simp only [Bool.and_eq_true, beq_iff_eq, Bool.not_eq_true']
  constructor
  · rintro ⟨⟨hm, hty⟩, hin, hdel⟩
    exact ⟨hm, hty, hin, by simpa using hdel⟩
  · rintro ⟨hm, hty, hin, hdel⟩
    exact ⟨⟨hm, hty⟩, hin, by simpa using hdel⟩

theorem qualifyingKeys_type {keys0 : List KeyFile} {ktype : String} {ref : Int}
    {k : KeyFile} (h : k ∈ qualifyingKeys keys0 ktype ref) : k.type = ktype :=
  (mem_qualifyingKeys.mp h).2.1

theorem qualifyingKeys_algo_pairwise {keys0 : List KeyFile} {ref : Int} {z : String}
    (hz : ∀ k ∈ keys0, k.zone = z) (ktype : String) :
    List.Pairwise (fun a b : KeyFile => a.algo ≤ b.algo)
      (qualifyingKeys keys0 ktype ref) := by
  apply List.Pairwise.imp_of_mem ?_ (qualifyingKeys_pairwise keys0 ktype ref)
  intro a b ha hb hle
  have hza : a.zone = z := hz a (mem_qualifyingKeys.mp ha).1
  have hzb : b.zone = z := hz b (mem_qualifyingKeys.mp hb).1
  exact sortKeyLE_algo_le hle (hza.trans hzb.symm)
    ((qualifyingKeys_type ha).trans (qualifyingKeys_type hb).symm)

theorem dictItems_cover {α β : Type} [DecidableEq β] {f : α → β} {l : List α}
    (hnd : ((groupbyRuns f l).map Prod.fst).Nodup) {x : α} (hx : x ∈ l) :
    ∃ p ∈ dictItems (groupbyRuns f l), x ∈ p.2 ∧ p.1 = f x ∧
      p.2 = l.filter (fun y => decide (f y = p.1)) := by
  rw [dictItems_eq_of_nodup hnd]
  have hcov : x ∈ (groupbyRuns f l).flatMap (fun p => p.2) := by
    rw [groupbyRuns_flatten]; exact hx
  rcases List.mem_flatMap.mp hcov with ⟨p, hp, hxp⟩
  refine ⟨p, hp, hxp, (groupbyRuns_group_key hp x hxp).symm, ?_⟩
  have hget : dictGet (groupbyRuns f l) p.1 = some p.2 := by
    rw [← dictItems_eq_of_nodup hnd] at hp
    exact dictItems_sound hp
  exact dictGet_eq_filter_of_nodup hnd hget

theorem dictItems_group_eq {α β : Type} [DecidableEq β] {f : α → β} {l : List α}
    (hnd : ((groupbyRuns f l).map Prod.fst).Nodup) {p : β × List α}
    (hp : p ∈ dictItems (groupbyRuns f l)) :
    p.2 = l.filter (fun y => decide (f y = p.1)) :=
  dictGet_eq_filter_of_nodup hnd (dictItems_sound hp)

theorem mem_group_of_dictItems {α β : Type} [DecidableEq β] {f : α → β}
    {l : List α} {p : β × List α} (hp : p ∈ dictItems (groupbyRuns f l)) :
    ∀ x ∈ p.2, x ∈ l ∧ f x = p.1 := by
  intro x hx
  have hmem := dictGet_mem (dictItems_sound hp)
  exact ⟨groupbyRuns_group_subset hmem x hx, groupbyRuns_group_key hmem x hx⟩

theorem getLastD_mem {α : Type} {l : List α} (h : l ≠ []) (d : α) : l.getLastD d ∈ l := by
  rw [List.getLastD_eq_getLast?, List.getLast?_eq_getLast_of_ne_nil h]
  exact List.getLast_mem h

theorem pickTemplate_mem {akeys : List KeyFile} (h : akeys ≠ []) :
    pickTemplate akeys ∈ akeys := by
  unfold pickTemplate
  have hsne : List.insertionSort
      (fun a b : KeyFile => a.d_create.getD 0 ≤ b.d_create.getD 0) akeys ≠ [] := by
    intro hnil
    have := List.perm_insertionSort
      (fun a b : KeyFile => a.d_create.getD 0 ≤ b.d_create.getD 0) akeys
    rw [hnil] at this
    exact h (this.symm.eq_nil)
  have := getLastD_mem hsne (default : KeyFile)
  exact (List.perm_insertionSort _ _).mem_iff.mp (by exact this)

theorem selActives_ne_nil_source {akeys : List KeyFile} {ref : Int} {k : KeyFile}
    (h : k ∈ selActives akeys ref) : akeys ≠ [] := by
  intro hnil
  subst hnil
  simp [selActives, groupbyRuns, dictGet] at h

/-- Soundness of `set_times` plan entries. -/
theorem planCore_set_times_sound {keys : List KeyFile} {post ref : Int}
    {k : KeyFile} {nd : Int}
    (h : RotationAction.set_times k nd ∈ planCore keys post ref) :
    k ∈ keys ∧ k.state ref = "ACT" ∧ nd = k.d_inactive.getD 0 + post ∧
      (k.d_delete = none ∨ k.d_delete.getD 0 > k.d_inactive.getD 0 + 1 + post) := by
  rcases mem_planCore_iff.mp h with ⟨p, hp, hgp⟩
  rcases mem_groupPlan_iff.mp hgp with ⟨a, ha, hca⟩
  rcases mem_checkActive_set_times.mp hca with ⟨rfl, hnd, hcond⟩
  rcases selActives_sound ha with ⟨hmem, hact⟩
  exact ⟨(mem_group_of_dictItems hp k hmem).1, hact, hnd, hcond⟩

/-- Soundness of `make_successor` plan entries. -/
theorem planCore_make_successor_sound {keys : List KeyFile} {post ref : Int}
    {t : KeyFile} {aat : Int}
    (h : RotationAction.make_successor t aat ∈ planCore keys post ref) :
    t ∈ keys ∧ ∃ active ∈ keys, active.state ref = "ACT" ∧
      aat = active.d_inactive.getD 0 ∧ t.algo = active.algo := by
  rcases mem_planCore_iff.mp h with ⟨p, hp, hgp⟩
  rcases mem_groupPlan_iff.mp hgp with ⟨a, ha, hca⟩
  rcases mem_checkActive_make_successor.mp hca with ⟨rfl, haat, _⟩
  rcases selActives_sound ha with ⟨hmem, hact⟩
  have hne : p.2 ≠ [] := fun hnil => by rw [hnil] at hmem; simp at hmem
  have htm : pickTemplate p.2 ∈ p.2 := pickTemplate_mem hne
  have h1 := mem_group_of_dictItems hp _ htm
  have h2 := mem_group_of_dictItems hp a hmem
  exact ⟨h1.1, a, h2.1, hact, haat, h1.2.trans h2.2.symm⟩

theorem state_eq_ACT_iff {k : KeyFile} {t : Int} :
    k.state t = "ACT" ↔
      tsLE k.d_delete t = false ∧ tsLE k.d_inactive t = false ∧
        tsLE k.d_active t = true := by
  unfold KeyFile.state
  split_ifs <;> simp_all

theorem state_eq_DEL_iff {k : KeyFile} {t : Int} :
    k.state t = "DEL" ↔ tsLE k.d_delete t = true := by
  unfold KeyFile.state
  split_ifs <;> simp_all

theorem state_ACT_set_delete {k : KeyFile} {t post : Int} (hpost : 0 ≤ post)
    (hi : k.d_inactive.isSome = true) (h : k.state t = "ACT") :
    ({ k with d_delete := some (k.d_inactive.getD 0 + post) } : KeyFile).state t =
      "ACT" := by
  rcases state_eq_ACT_iff.mp h with ⟨_, hinac, hact⟩
  rcases hio : k.d_inactive with _ | i
  · rw [hio] at hi; simp at hi
  · rw [hio] at hinac
    simp only [tsLE, decide_eq_false_iff_not, not_le] at hinac
    apply state_eq_ACT_iff.mpr
    refine ⟨?_, ?_, hact⟩
    · simp only [tsLE, hio, Option.getD_some, decide_eq_false_iff_not, not_le]
      omega
    · simpa [tsLE, hio] using hinac

theorem applyAdjust_cases (plan : List RotationAction) (k : KeyFile) :
    applyAdjust plan k = k ∨
      ∃ nd, RotationAction.set_times k nd ∈ plan ∧
        applyAdjust plan k = { k with d_delete := some nd } := by
  unfold applyAdjust planAdjust
  rcases hf : List.findSome? (fun a =>
      match a with
      | RotationAction.set_times key nd => if key = k then some nd else none
      | RotationAction.make_successor _ _ => none) plan with _ | nd
  · left
    rw [hf]
  · right
    rcases List.exists_of_findSome?_eq_some hf with ⟨a, ha, hfa⟩
    refine ⟨nd, ?_, by rw [hf]⟩
    rcases a with ⟨key, nd'⟩ | ⟨t, aat⟩
    · by_cases hkey : key = k
      · rw [hkey] at ha
        simp only [hkey, if_pos trivial, Option.some.injEq] at hfa
        rw [hfa] at ha
        exact ha
      · simp [hkey] at hfa
    · simp at hfa

theorem applyAdjust_none_of_no_action {plan : List RotationAction} {k : KeyFile}
    (h : ∀ nd, RotationAction.set_times k nd ∉ plan) : applyAdjust plan k = k := by
  unfold applyAdjust planAdjust
  rw [List.findSome?_eq_none_iff.mpr ?_]
  intro a ha
  rcases a with ⟨key, nd'⟩ | ⟨t, aat⟩
  · by_cases hkey : key = k
    · exact absurd (hkey ▸ ha) (h nd')
    · simp [hkey]
  · rfl

theorem applyAdjust_fields (plan : List RotationAction) (k : KeyFile) :
    (applyAdjust plan k).zone = k.zone ∧ (applyAdjust plan k).type = k.type ∧
    (applyAdjust plan k).algo = k.algo ∧ (applyAdjust plan k).keyid = k.keyid ∧
    (applyAdjust plan k).d_create = k.d_create ∧
    (applyAdjust plan k).d_publish = k.d_publish ∧
    (applyAdjust plan k).d_active = k.d_active ∧
    (applyAdjust plan k).d_inactive = k.d_inactive := by
  unfold applyAdjust
  rcases planAdjust plan k with _ | nd <;> simp

theorem execSuccessor_state_ends {t : KeyFile} {aat prepub life post overl ref : Int}
    (hov : 0 ≤ overl) (hlife : overl + 2 ≤ life) (hpost : 0 ≤ post) :
    (execSuccessor t aat prepub life post overl ref).state (aat + 1) = "ACT" := by
  apply state_eq_ACT_iff.mpr
  refine ⟨?_, ?_, ?_⟩ <;>
    simp only [execSuccessor, make_successor_times, tsLE, Option.getD_some,
      decide_eq_false_iff_not, not_le, decide_eq_true_eq] <;> omega

theorem execSuccessor_not_ACT {t : KeyFile} {aat prepub life post overl ref : Int}
    (hlife : 0 ≤ life) (hpost : 0 ≤ post) (hgt : ref < aat - overl) :
    ¬((execSuccessor t aat prepub life post overl ref).state ref = "ACT") := by
  intro h
  rcases state_eq_ACT_iff.mp h with ⟨_, _, hact⟩
  simp only [execSuccessor, make_successor_times, tsLE, decide_eq_true_eq] at hact
  omega

theorem execSuccessor_not_DEL {t : KeyFile} {aat prepub life post overl ref : Int}
    (hlife : 0 ≤ life) (hpost : 0 ≤ post) (hgt : ref < aat - overl) :
    ¬((execSuccessor t aat prepub life post overl ref).state ref = "DEL") := by
  intro h
  have := state_eq_DEL_iff.mp h
  simp only [execSuccessor, make_successor_times, tsLE, decide_eq_true_eq] at this
  omega

theorem mem_applyPlan {keys : List KeyFile} {plan : List RotationAction}
    {prepub life post overl ref : Int} {x : KeyFile} :
    x ∈ applyPlan keys plan prepub life post overl ref ↔
      (∃ k ∈ keys, x = applyAdjust plan k) ∨
      (∃ t aat, RotationAction.make_successor t aat ∈ plan ∧
        x = execSuccessor t aat prepub life post overl ref) := by
  unfold applyPlan
  rw [List.mem_append, List.mem_map, List.mem_filterMap]
  constructor
  · rintro (⟨k, hk, hx⟩ | ⟨a, ha, hx⟩)
    · exact Or.inl ⟨k, hk, hx.symm⟩
    · rcases a with ⟨key, nd⟩ | ⟨t, aat⟩
      · simp at hx
      · simp only [Option.some.injEq] at hx
        exact Or.inr ⟨t, aat, ha, hx.symm⟩
  · rintro (⟨k, hk, hx⟩ | ⟨t, aat, ha, hx⟩)
    · exact Or.inl ⟨k, hk, hx.symm⟩
    · exact Or.inr ⟨RotationAction.make_successor t aat, ha, by simp [hx]⟩

theorem ACT_ne_DEL {k : KeyFile} {t : Int} (h : k.state t = "ACT") :
    ¬(k.state t = "DEL") := by
  rw [h]
  simp

theorem isEmpty_false_of_mem {α : Type} {l : List α} {x : α} (h : x ∈ l) :
    l.isEmpty = false := by
  cases l with
  | nil => simp at h
  | cons a l => rfl

/-- After executing its own plan, every still-active key passes both of the
planner's per-key checks: its deletion time is within the post-publish
window and some key of its algorithm group is active one second after its
inactivation. -/
theorem run2_active_checks (keys0 : List KeyFile) (prepub life post overl ref : Int)
    (z : String)
    (hzone : ∀ k ∈ keys0, k.zone = z)
    (hpost : 0 ≤ post) (hov : 0 ≤ overl) (hlife : overl + 2 ≤ life)
    (hsel : ∀ p ∈ dictItems (groupbyRuns (fun k : KeyFile => k.algo)
        (qualifyingKeys keys0 "ZSK" ref)),
      selActives p.2 ref = p.2.filter (fun k => decide (k.state ref = "ACT")))
    (hnew : ∀ t aat, RotationAction.make_successor t aat ∈
        planCore (qualifyingKeys keys0 "ZSK" ref) post ref → ref < aat - overl)
    (x : KeyFile)
    (hx : x ∈ qualifyingKeys
        (applyPlan keys0 (planCore (qualifyingKeys keys0 "ZSK" ref) post ref)
          prepub life post overl ref) "ZSK" ref)
    (hxact : x.state ref = "ACT") :
    (x.d_delete.isNone ||
      decide (x.d_delete.getD 0 > x.d_inactive.getD 0 + 1 + post)) = false ∧
    ∃ y ∈ qualifyingKeys
        (applyPlan keys0 (planCore (qualifyingKeys keys0 "ZSK" ref) post ref)
          prepub life post overl ref) "ZSK" ref,
      y.algo = x.algo ∧ y.state (x.d_inactive.getD 0 + 1) = "ACT" := by
  have hlife0 : 0 ≤ life := by omega
  have hnd1 : ((groupbyRuns (fun k : KeyFile => k.algo)
      (qualifyingKeys keys0 "ZSK" ref)).map Prod.fst).Nodup :=
    groupbyRuns_keys_nodup (qualifyingKeys_algo_pairwise hzone "ZSK")
  obtain ⟨hxK2, hxtype, hxinact, hxdel⟩ := mem_qualifyingKeys.mp hx
  rcases mem_applyPlan.mp hxK2 with ⟨k, hk0, hxeq⟩ | ⟨t, aat, hmk, hxeq⟩
  swap
  · exact absurd (hxeq ▸ hxact) (execSuccessor_not_ACT hlife0 hpost (hnew t aat hmk))
  obtain ⟨hfz, hft, hfa, hfk, hfc, hfp, hfact, hfin⟩ :=
    applyAdjust_fields (planCore (qualifyingKeys keys0 "ZSK" ref) post ref) k
  have hktype : k.type = "ZSK" := by
    rw [← hft, ← hxeq]
    exact hxtype
  have hkinact : x.d_inactive = k.d_inactive := by
    rw [hxeq]
    exact hfin
  have hkact : k.state ref = "ACT" := by
    rcases applyAdjust_cases (planCore (qualifyingKeys keys0 "ZSK" ref) post ref) k with
      hcase | ⟨nd, hmem, _⟩
    · rw [← hcase, ← hxeq]
      exact hxact
    · exact (planCore_set_times_sound hmem).2.1
  have hkkf : k ∈ qualifyingKeys keys0 "ZSK" ref :=
    mem_qualifyingKeys.mpr ⟨hk0, hktype, by rw [← hkinact]; exact hxinact, ACT_ne_DEL hkact⟩
  obtain ⟨p1, hp1, hkp1, hp1key, hp1filter⟩ := dictItems_cover hnd1 hkkf
  have hksel : k ∈ selActives p1.2 ref := by
    rw [hsel p1 hp1]
    exact List.mem_filter.mpr ⟨hkp1, by simp [hkact]⟩
  have hkalgo : k.algo = p1.1 := hp1key.symm
  have hxalgo : x.algo = k.algo := by
    rw [hxeq]
    exact hfa
  constructor
  · -- (a) the deletion time needs no further adjustment
    by_cases hcond : (k.d_delete = none ∨
        k.d_delete.getD 0 > k.d_inactive.getD 0 + 1 + post)
    · have hmem : RotationAction.set_times k (k.d_inactive.getD 0 + post) ∈
          planCore (qualifyingKeys keys0 "ZSK" ref) post ref :=
        mem_planCore_iff.mpr ⟨p1, hp1, mem_groupPlan_iff.mpr ⟨k, hksel,
          mem_checkActive_set_times.mpr ⟨rfl, rfl, hcond⟩⟩⟩
      rcases applyAdjust_cases (planCore (qualifyingKeys keys0 "ZSK" ref) post ref) k with
        hcase | ⟨nd, hmemnd, hcase⟩
      · -- impossible: the plan does adjust k, so applyAdjust must have fired;
        -- but even if the adjusted key coincides with k we can argue directly
        -- via the value of planAdjust.
        rcases hpan : planAdjust (planCore (qualifyingKeys keys0 "ZSK" ref) post ref) k with
          _ | nd
        · exfalso
          unfold planAdjust at hpan
          have := List.findSome?_eq_none_iff.mp hpan _ hmem
          simp at this
        · obtain ⟨a, ha, hfa'⟩ := List.exists_of_findSome?_eq_some
            (by unfold planAdjust at hpan; exact hpan)
          rcases a with ⟨key, nd'⟩ | ⟨t', aat'⟩
          · have hfa2 : (if key = k then some nd' else none) = some nd := hfa'
            by_cases hkey : key = k
            · rw [if_pos hkey] at hfa2
              have hnd'nd : nd' = nd := by simpa using hfa2
              rw [hkey, hnd'nd] at ha
              have hndval := (planCore_set_times_sound ha).2.2.1
              have hxval : x = { k with d_delete := some nd } := by
                rw [hxeq]
                unfold applyAdjust
                rw [hpan]
              rw [hxval, hndval]
              simp only [Option.isNone_some, Bool.false_or, decide_eq_false_iff_not,
                not_lt, Option.getD_some]
              omega
            · simp [hkey] at hfa2
          · have hfa2 : (none : Option Int) = some nd := hfa'
            simp at hfa2
      · have hndval := (planCore_set_times_sound hmemnd).2.2.1
        rw [hxeq, hcase, hndval]
        simp only [Option.isNone_some, Bool.false_or, decide_eq_false_iff_not, not_lt,
          Option.getD_some]
        omega
    · have hnone : ∀ nd, RotationAction.set_times k nd ∉
          planCore (qualifyingKeys keys0 "ZSK" ref) post ref := fun nd hmem =>
        hcond (planCore_set_times_sound hmem).2.2.2
      have hxk : x = k := by
        rw [hxeq, applyAdjust_none_of_no_action hnone]
      push_neg at hcond
      rw [hxk]
      simp only [Bool.or_eq_false_iff, decide_eq_false_iff_not, not_lt]
      constructor
      · rcases hdel : k.d_delete with _ | d
        · exact absurd hdel hcond.1
        · rfl
      · exact hcond.2
  · -- (b) some key of the group is active at `ends`
    by_cases hfe : (p1.2.filter
        (fun k' => k'.state (k.d_inactive.getD 0 + 1) == "ACT")).isEmpty = true
    · -- run 1 created a successor; it is active at `ends`
      have hmk2 : RotationAction.make_successor (pickTemplate p1.2)
          (k.d_inactive.getD 0) ∈
          planCore (qualifyingKeys keys0 "ZSK" ref) post ref :=
        mem_planCore_iff.mpr ⟨p1, hp1, mem_groupPlan_iff.mpr ⟨k, hksel,
          mem_checkActive_make_successor.mpr ⟨rfl, rfl, hfe⟩⟩⟩
      have hp2ne : p1.2 ≠ [] := fun hnil => by rw [hnil] at hkp1; simp at hkp1
      have htp : pickTemplate p1.2 ∈ p1.2 := pickTemplate_mem hp2ne
      have htkf : pickTemplate p1.2 ∈ qualifyingKeys keys0 "ZSK" ref :=
        (mem_group_of_dictItems hp1 _ htp).1
      have htalgo : (pickTemplate p1.2).algo = p1.1 :=
        (mem_group_of_dictItems hp1 _ htp).2
      have hgt : ref < k.d_inactive.getD 0 - overl := hnew _ _ hmk2
      have hSK2 : execSuccessor (pickTemplate p1.2) (k.d_inactive.getD 0)
          prepub life post overl ref ∈
          applyPlan keys0 (planCore (qualifyingKeys keys0 "ZSK" ref) post ref)
            prepub life post overl ref :=
        mem_applyPlan.mpr (Or.inr ⟨pickTemplate p1.2, k.d_inactive.getD 0, hmk2, rfl⟩)
      have hSkf2 : execSuccessor (pickTemplate p1.2) (k.d_inactive.getD 0)
          prepub life post overl ref ∈ qualifyingKeys
            (applyPlan keys0 (planCore (qualifyingKeys keys0 "ZSK" ref) post ref)
              prepub life post overl ref) "ZSK" ref := by
        apply mem_qualifyingKeys.mpr
        refine ⟨hSK2, ?_, by rfl, execSuccessor_not_DEL hlife0 hpost hgt⟩
        show (pickTemplate p1.2).type = "ZSK"
        exact qualifyingKeys_type htkf
      refine ⟨_, hSkf2, ?_, ?_⟩
      · show (execSuccessor (pickTemplate p1.2) (k.d_inactive.getD 0)
            prepub life post overl ref).algo = x.algo
        have : (execSuccessor (pickTemplate p1.2) (k.d_inactive.getD 0)
            prepub life post overl ref).algo = (pickTemplate p1.2).algo := rfl
        rw [this, htalgo, hxalgo, hkalgo]
      · rw [hkinact]
        exact execSuccessor_state_ends hov hlife hpost
    · -- a key of the original set is still active at `ends`
      have hjex : ∃ j ∈ p1.2, (j.state (k.d_inactive.getD 0 + 1) == "ACT") = true := by
        rcases hflt : p1.2.filter
            (fun k' => k'.state (k.d_inactive.getD 0 + 1) == "ACT") with _ | ⟨j, js⟩
        · rw [hflt] at hfe
          simp at hfe
        · have hjmem : j ∈ p1.2.filter
              (fun k' => k'.state (k.d_inactive.getD 0 + 1) == "ACT") := by
            rw [hflt]
            exact List.mem_cons_self _ _
          exact ⟨j, (List.mem_filter.mp hjmem).1, (List.mem_filter.mp hjmem).2⟩
      obtain ⟨j, hjp, hjact'⟩ := hjex
      have hjact : j.state (k.d_inactive.getD 0 + 1) = "ACT" := by
        simpa using hjact'
      have hjkf : j ∈ qualifyingKeys keys0 "ZSK" ref :=
        (mem_group_of_dictItems hp1 j hjp).1
      have hjalgo : j.algo = p1.1 := (mem_group_of_dictItems hp1 j hjp).2
      obtain ⟨hj0, hjtype, hjinact, hjdel⟩ := mem_qualifyingKeys.mp hjkf
      obtain ⟨gjz, gjt, gja, gjk, gjc, gjp, gjact, gjin⟩ :=
        applyAdjust_fields (planCore (qualifyingKeys keys0 "ZSK" ref) post ref) j
      have hyK2 : applyAdjust (planCore (qualifyingKeys keys0 "ZSK" ref) post ref) j ∈
          applyPlan keys0 (planCore (qualifyingKeys keys0 "ZSK" ref) post ref)
            prepub life post overl ref :=
        mem_applyPlan.mpr (Or.inl ⟨j, hj0, rfl⟩)
      have hyactend : (applyAdjust (planCore (qualifyingKeys keys0 "ZSK" ref) post ref)
          j).state (k.d_inactive.getD 0 + 1) = "ACT" := by
        rcases applyAdjust_cases (planCore (qualifyingKeys keys0 "ZSK" ref) post ref) j with
          hcase | ⟨nd, hmemj, hcase⟩
        · rw [hcase]
          exact hjact
        · rw [hcase, (planCore_set_times_sound hmemj).2.2.1]
          exact state_ACT_set_delete hpost hjinact hjact
      have hyDEL : ¬ ((applyAdjust (planCore (qualifyingKeys keys0 "ZSK" ref) post ref)
          j).state ref = "DEL") := by
        rcases applyAdjust_cases (planCore (qualifyingKeys keys0 "ZSK" ref) post ref) j with
          hcase | ⟨nd, hmemj, hcase⟩
        · rw [hcase]
          exact hjdel
        · apply ACT_ne_DEL
          rw [hcase, (planCore_set_times_sound hmemj).2.2.1]
          exact state_ACT_set_delete hpost hjinact (planCore_set_times_sound hmemj).2.1
      have hykf2 : applyAdjust (planCore (qualifyingKeys keys0 "ZSK" ref) post ref) j ∈
          qualifyingKeys
            (applyPlan keys0 (planCore (qualifyingKeys keys0 "ZSK" ref) post ref)
              prepub life post overl ref) "ZSK" ref := by
        apply mem_qualifyingKeys.mpr
        refine ⟨hyK2, ?_, ?_, hyDEL⟩
        · rw [gjt]
          exact hjtype
        · rw [gjin]
          exact hjinact
      refine ⟨_, hykf2, ?_, ?_⟩
      · rw [gja, hjalgo, hxalgo, hkalgo]
      · rw [hkinact]
        exact hyactend

/-- Claim C5 counterexample: idempotence fails as stated.  One zone key
(active now, inactive at 86450, one day past the reference time 50) rotated
with the default intervals (1w/2w/1w/1w in seconds) gets a successor whose
activation lies *before* the reference time; re-running the planner after
executing the plan therefore finds a second active key and plans yet another
successor, so the second plan is not empty. -/
theorem claim_C5_counterexample :
    main_rotate
      (applyPlan [⟨"z.", "ZSK", 13, 1, some 0, some 0, some 0, some 86450, none⟩]
        (planCore (qualifyingKeys
          [⟨"z.", "ZSK", 13, 1, some 0, some 0, some 0, some 86450, none⟩] "ZSK" 50) 604800 50)
        604800 1209600 604800 604800 50)
      "ZSK" 604800 1209600 604800 604800 50 ≠ .ok ([] : List RotationAction) := by
  intro h
  have heval : main_rotate
      (applyPlan [⟨"z.", "ZSK", 13, 1, some 0, some 0, some 0, some 86450, none⟩]
        (planCore (qualifyingKeys
          [⟨"z.", "ZSK", 13, 1, some 0, some 0, some 0, some 86450, none⟩] "ZSK" 50) 604800 50)
        604800 1209600 604800 604800 50)
      "ZSK" 604800 1209600 604800 604800 50 =
      .ok [RotationAction.make_successor
        ⟨"z.", "ZSK", 13, 1, some 50, some (-1123150), some (-518350), some 691250,
          some 1296050⟩ 691250] := by rfl
  rw [heval] at h
  simp at h

/-- Claim C5 (amended): executing the plan and re-running the planner at the
same reference time yields an empty plan, provided (i) all keys belong to one
zone, (ii) the intervals are non-negative with `lifetime ≥ overlap + 2 s`,
(iii) within each algorithm group the currently-active keys are selected
without the consecutive-run loss of `groupby_freeze` (the C1 defect), and
(iv) every successor the plan creates is not yet active at the reference
time (`activateAt - overlap > referenceTime`). -/
theorem claim_C5_idempotence (keys0 : List KeyFile) (prepub life post overl ref : Int)
    (z : String)
    (hzone : ∀ k ∈ keys0, k.zone = z)
    (hpre : 0 ≤ prepub) (hpost : 0 ≤ post) (hov : 0 ≤ overl)
    (hlife : overl + 2 ≤ life)
    (hsel : ∀ p ∈ dictItems (groupbyRuns (fun k : KeyFile => k.algo)
        (qualifyingKeys keys0 "ZSK" ref)),
      selActives p.2 ref = p.2.filter (fun k => decide (k.state ref = "ACT")))
    (hnew : (planCore (qualifyingKeys keys0 "ZSK" ref) post ref).all
      (fun a => match a with
        | RotationAction.make_successor _ aat => decide (ref < aat - overl)
        | RotationAction.set_times _ _ => true) = true) :
    main_rotate
      (applyPlan keys0 (planCore (qualifyingKeys keys0 "ZSK" ref) post ref)
        prepub life post overl ref)
      "ZSK" prepub life post overl ref = .ok [] := by
  have hlife0 : 0 ≤ life := by omega
  have hnew' : ∀ t aat, RotationAction.make_successor t aat ∈
      planCore (qualifyingKeys keys0 "ZSK" ref) post ref → ref < aat - overl := by
    intro t aat hmem
    have := List.all_eq_true.mp hnew _ hmem
    simpa using this
  have hzone2 : ∀ k ∈ applyPlan keys0
      (planCore (qualifyingKeys keys0 "ZSK" ref) post ref) prepub life post overl ref,
      k.zone = z := by
    intro y hy
    rcases mem_applyPlan.mp hy with ⟨k, hk0, rfl⟩ | ⟨t, aat, hmk, rfl⟩
    · rw [(applyAdjust_fields _ k).1]
      exact hzone k hk0
    · show t.zone = z
      exact hzone t (mem_qualifyingKeys.mp (planCore_make_successor_sound hmk).1).1
  have hnd2 : ((groupbyRuns (fun k : KeyFile => k.algo)
      (qualifyingKeys (applyPlan keys0
        (planCore (qualifyingKeys keys0 "ZSK" ref) post ref) prepub life post overl ref)
        "ZSK" ref)).map Prod.fst).Nodup :=
    groupbyRuns_keys_nodup (qualifyingKeys_algo_pairwise hzone2 "ZSK")
  have hplan2 : planCore (qualifyingKeys (applyPlan keys0
      (planCore (qualifyingKeys keys0 "ZSK" ref) post ref) prepub life post overl ref)
      "ZSK" ref) post ref = [] := by
    unfold planCore
    apply List.flatMap_eq_nil_iff.mpr
    intro p hp
    rw [groupPlan_eq_flatMap]
    apply List.flatMap_eq_nil_iff.mpr
    intro a ha
    have ha' : a ∈ selActives p.2 ref := (List.perm_insertionSort _ _).mem_iff.mp ha
    obtain ⟨hap, haact⟩ := selActives_sound ha'
    obtain ⟨hakf2, haalgo⟩ := mem_group_of_dictItems hp a hap
    obtain ⟨hnoadj, y, hykf2, hyalgo, hyact⟩ := run2_active_checks keys0 prepub life post
      overl ref z hzone hpost hov hlife hsel hnew' a hakf2 haact
    have hyp2 : y ∈ p.2 := by
      rw [dictItems_group_eq hnd2 hp]
      exact List.mem_filter.mpr ⟨hykf2, by simp [hyalgo, haalgo]⟩
    have hyfilter : y ∈ p.2.filter
        (fun k' => k'.state (a.d_inactive.getD 0 + 1) == "ACT") :=
      List.mem_filter.mpr ⟨hyp2, by simp [hyact]⟩
    unfold checkActive
    rw [hnoadj]
    rw [isEmpty_false_of_mem hyfilter]
    simp
  unfold main_rotate
  rw [if_neg (by simp)]
  by_cases hemp : (qualifyingKeys (applyPlan keys0
      (planCore (qualifyingKeys keys0 "ZSK" ref) post ref) prepub life post overl ref)
      "ZSK" ref).isEmpty = true
  · rw [if_pos hemp]
  · rw [if_neg hemp, if_neg (by omega), if_neg (by omega), if_neg (by omega),
      if_neg (by omega), if_neg (by omega), hplan2]

/-- Witness for C5 at a concrete input: a single active key whose successor
(activating at `100 - 7 = 93 > 50`) is not yet active at the reference time. -/
theorem claim_C5_idempotence_witness :
    main_rotate
      (applyPlan [⟨"z.", "ZSK", 13, 1, some 0, some 0, some 0, some 100, none⟩]
        (planCore (qualifyingKeys
          [⟨"z.", "ZSK", 13, 1, some 0, some 0, some 0, some 100, none⟩] "ZSK" 50) 7 50)
        3 10 7 7 50)
      "ZSK" 3 10 7 7 50 = .ok [] := by
  exact claim_C5_idempotence
    [⟨"z.", "ZSK", 13, 1, some 0, some 0, some 0, some 100, none⟩] 3 10 7 7 50 "z."
    (by decide) (by norm_num) (by norm_num) (by norm_num) (by norm_num)
    (by decide) (by decide)


set_option maxHeartbeats 2000000 in
theorem rqLoop_all_conn_fail (roots : List String) (fuel : Nat) (qname : String)
    (what : RType) :
    ∀ nss, rqLoop (fun _ _ _ => none) roots fuel nss qname what [] =
      .error (.noNameservers []) := by
  intro nss
  induction nss with
  | nil => rw [rqLoop]
  | cons ns rest ih =>
    rw [rqLoop]
    exact ih

set_option maxHeartbeats 4000000 in
theorem rq_err_nil (net : String → String → RType → Option DnsResponse)
    (roots : List String) :
    ∀ fuel : Nat,
      (∀ qname what es, rqQuery net roots fuel qname what =
        .error (.noNameservers es) → es = []) ∧
      (∀ nss qname what es, rqLoop net roots fuel nss qname what [] =
        .error (.noNameservers es) → es = []) ∧
      (∀ additional ty hs es, rqCollect net roots fuel additional ty hs =
        .error (.noNameservers es) → es = []) ∧
      (∀ authority additional es, rqAuthority net roots fuel authority additional =
        .error (.noNameservers es) → es = []) := by
  intro fuel
  induction fuel using Nat.strong_induction_on with
  | _ fuel ih =>
    have hQ : ∀ qname what es, rqQuery net roots fuel qname what =
        .error (.noNameservers es) → es = [] := by
      intro qname what es h
      match fuel, h with
      | 0, h => rw [rqQuery] at h; simp at h
      | g + 1, h =>
        rw [rqQuery] at h
        exact (ih g (by omega)).2.1 roots qname what es h
    have hC : ∀ additional ty hs es, rqCollect net roots fuel additional ty hs =
        .error (.noNameservers es) → es = [] := by
      intro additional ty hs
      induction hs with
      | nil => intro es h; rw [rqCollect] at h; simp at h
      | cons a hs ihs =>
        intro es h
        rw [rqCollect] at h
        split_ifs at h
        · split at h
          next e heq =>
            rw [Except.error.injEq] at h
            exact ihs es (by rw [heq, h])
          next rest heq => simp at h
        · split at h
          next e heq =>
            rw [Except.error.injEq] at h
            exact hQ a ty es (by rw [heq, h])
          next ans heq =>
            split at h
            next e heq2 =>
              rw [Except.error.injEq] at h
              exact ihs es (by rw [heq2, h])
            next rest heq2 => simp at h
    have hA : ∀ authority additional es, rqAuthority net roots fuel authority additional =
        .error (.noNameservers es) → es = [] := by
      intro authority additional es h
      rw [rqAuthority] at h
      split at h
      next e heq =>
        rw [Except.error.injEq] at h
        exact hC additional RType.AAAA _ es (by rw [heq, h])
      next a6 heq =>
        split at h
        next e heq2 =>
          rw [Except.error.injEq] at h
          exact hC additional RType.A _ es (by rw [heq2, h])
        next a4 heq2 => simp at h
    refine ⟨hQ, ?_, hC, hA⟩
    intro nss qname what
    induction nss with
    | nil =>
      intro es h
      rw [rqLoop] at h
      rw [Except.error.injEq, DnsErr.noNameservers.injEq] at h
      exact h.symm
    | cons ns rest ihs =>
      intro es h
      rw [rqLoop] at h
      split at h
      next heq => exact ihs es h
      next e hne heq =>
        rw [Except.error.injEq] at h
        exact absurd h (hne es)
      next resp heq =>
        split at h
        · split at h
          next rs hrs => simp at h
          next hrs =>
            split at h
            next crs hcrs => exact hQ _ what es h
            next hcrs =>
              split at h
              · exact ihs es h
              · split at h
                · simp at h
                · split at h
                  · simp at h
                  · split at h
                    next hfz => simp at h
                    next hfz fuel2 =>
                      split at h
                      next e heq2 =>
                        rw [Except.error.injEq] at h
                        exact (ih fuel2 (by omega)).2.2.2 _ _ es (by rw [heq2, h])
                      next nss2 heq2 =>
                        exact (ih fuel2 (by omega)).2.1 nss2 qname what es h
        · split at h
          · simp at h
          · split at h
            · simp at h
            · exact ihs es h

/-- Claim C9 (code bug): when every candidate nameserver fails with a
connection error, the recursion does exhaust all candidates and fail with
`NoNameservers` — but the failure carries an *empty* error list instead of
the per-server transport errors: concretely for the two-root all-failing
network, and in general the error list of every `NoNameservers` failure of
the resolver is empty whatever the network answers.  `query_at` wraps each
`ConnectionError` into a `NoNameservers` exception (resolver.py 108–110),
which the loop's first `except` arm silently skips (line 180–181), so the
`except ConnectionError: errors.append(...)` branch (184–186) is dead code
and the final `raise NoNameservers(request=query, errors=errors)` (213)
always reports `errors = []`. -/
theorem claim_C9_errors_lost :
    (rqQuery (fun _ _ _ => none) ["198.41.0.4", "199.9.14.201"] 10
      "example.com." RType.DNSKEY = .error (.noNameservers [])) ∧
    (∀ (net : String → String → RType → Option DnsResponse) (roots : List String)
        (fuel : Nat) (qname : String) (what : RType) (es : List (String × String)),
      rqQuery net roots fuel qname what = .error (.noNameservers es) → es = []) :=
  ⟨by rw [rqQuery]; exact rqLoop_all_conn_fail _ _ _ _ _,
   fun net roots fuel qname what es h => (rq_err_nil net roots fuel).1 qname what es h⟩

theorem natListLE_total (u v : List Nat) :
    natListLE u v = true ∨ natListLE v u = true := by
  unfold natListLE
  rcases natListLt_total u v with h | h | h <;> simp [h]

theorem natListLE_trans {u v w : List Nat} (h1 : natListLE u v = true)
    (h2 : natListLE v w = true) : natListLE u w = true := by
  unfold natListLE at *
  simp only [Bool.or_eq_true, beq_iff_eq] at h1 h2 ⊢
  rcases h1 with h1 | h1
  · rcases h2 with h2 | h2
    · exact Or.inl (natListLt_trans _ _ _ h1 h2)
    · exact Or.inl (h2 ▸ h1)
  · rw [h1]
    exact h2

instance : IsTotal String strLE := ⟨fun a b => natListLE_total _ _⟩

instance : IsTrans String strLE := ⟨fun _ _ _ h1 h2 => natListLE_trans h1 h2⟩


/-- Claim C10 counterexample: after one zone query in which the resolver
`"a."` answered the DS lookup and is also the zone's only authoritative
nameserver, `contacted_servers` returns `["a.", "a."]` — the DS-answering
resolver is prepended without deduplication, so the result is not the
*union* of the server identities of the run. -/
theorem claim_C10_counterexample :
    contacted_servers (query_zone
        (fun _ => ⟨.ok ("a.", []), ["a."], fun _ => .ok [], fun _ => .ok []⟩)
        (initCollection none) "z.") = [some "a.", some "a."] ∧
    ¬ (contacted_servers (query_zone
        (fun _ => ⟨.ok ("a.", []), ["a."], fun _ => .ok [], fun _ => .ok []⟩)
        (initCollection none) "z.")).Nodup := by
  constructor
  · rfl
  · intro h
    have heq : contacted_servers (query_zone
        (fun _ => ⟨.ok ("a.", []), ["a."], fun _ => .ok [], fun _ => .ok []⟩)
        (initCollection none) "z.") = [some "a.", some "a."] := rfl
    rw [heq] at h
    simp at h

theorem uniqFirst_mem {β : Type} [DecidableEq β] {x : β} :
    ∀ {l : List β}, x ∈ uniqFirst l ↔ x ∈ l := by
  intro l
  induction l with
  | nil => simp [uniqFirst]
  | cons b r ih =>
    unfold uniqFirst
    simp only [List.mem_cons]
    constructor
    · rintro (rfl | hx)
      · exact Or.inl rfl
      · exact Or.inr (ih.mp (List.mem_of_mem_filter hx))
    · rintro (rfl | hx)
      · exact Or.inl rfl
      · by_cases hxb : x = b
        · exact Or.inl hxb
        · refine Or.inr (List.mem_filter.mpr ⟨ih.mpr hx, by simpa using hxb⟩)

theorem uniqFirst_nodup {β : Type} [DecidableEq β] :
    ∀ (l : List β), (uniqFirst l).Nodup := by
  intro l
  induction l with
  | nil => simp [uniqFirst]
  | cons b r ih =>
    unfold uniqFirst
    refine List.nodup_cons.mpr ⟨?_, List.Nodup.filter _ ih⟩
    intro hb
    have := (List.mem_filter.mp hb).2
    simp at this

theorem sortedSet_mem {x : String} {l : List String} :
    x ∈ sortedSet l ↔ x ∈ l := by
  unfold sortedSet
  rw [(List.perm_insertionSort strLE (uniqFirst l)).mem_iff]
  exact uniqFirst_mem

theorem sortedSet_sorted (l : List String) : List.Pairwise strLE (sortedSet l) :=
  List.sorted_insertionSort strLE (uniqFirst l)

theorem sortedSet_nodup (l : List String) : (sortedSet l).Nodup :=
  ((List.perm_insertionSort strLE (uniqFirst l)).nodup_iff).mpr (uniqFirst_nodup l)

theorem query_zone_explicit (env : String → ZoneEnv) (c : PublishedKeyCollection)
    (zone : String) :
    (query_zone env c zone).explicit_nameservers = c.explicit_nameservers := by
  unfold query_zone
  split_ifs with h
  · rfl
  · rcases (env zone).ds with e | ⟨ns, tags⟩ <;> rfl

theorem query_zone_invariant (env : String → ZoneEnv) (c : PublishedKeyCollection)
    (zone : String)
    (hI : ∀ n, n ∈ c.zone_dnskey.flatMap (fun p => p.2.map Prod.fst) ↔
      ∃ z ∈ c.known_zones, n ∈ zoneQueryServers c.explicit_nameservers env z) :
    ∀ n, n ∈ (query_zone env c zone).zone_dnskey.flatMap (fun p => p.2.map Prod.fst) ↔
      ∃ z ∈ (query_zone env c zone).known_zones,
        n ∈ zoneQueryServers c.explicit_nameservers env z := by
  intro n
  unfold query_zone
  split_ifs with h
  · exact hI n
  · rcases hds : (env zone).ds with e | ⟨ns, tags⟩ <;>
    · simp only [List.flatMap_append, List.flatMap_cons, List.flatMap_nil, List.append_nil,
        List.mem_append, List.mem_cons, List.map_map, List.mem_map]
      rw [hI n]
      constructor
      · rintro (hold | hnew)
        · rcases hold with ⟨z, hz, hn⟩
          exact ⟨z, Or.inr hz, hn⟩
        · refine ⟨zone, Or.inl rfl, ?_⟩
          rcases hnew with ⟨srv, hsrv, rfl⟩
          unfold zoneQueryServers
          rcases hex : c.explicit_nameservers with _ | l <;> rw [hex] at hsrv <;>
            simpa using hsrv
      · rintro ⟨z, rfl | hz, hn⟩
        · right
          unfold zoneQueryServers at hn
          rcases hex : c.explicit_nameservers with _ | l <;> rw [hex] at hn <;>
          · simp only [List.mem_map]
            exact ⟨n, by simpa using hn, rfl⟩
        · exact Or.inl ⟨z, hz, hn⟩

theorem query_zone_known (env : String → ZoneEnv) (c : PublishedKeyCollection)
    (zone z : String) :
    z ∈ (query_zone env c zone).known_zones ↔ z = zone ∨ z ∈ c.known_zones := by
  unfold query_zone
  split_ifs with h
  · constructor
    · exact Or.inr
    · rintro (rfl | hz)
      · exact h
      · exact hz
  · rcases (env zone).ds with e | ⟨ns, tags⟩ <;> simp

theorem fold_query_zone_servers (env : String → ZoneEnv)
    (explicit : Option (List String)) :
    ∀ (zones : List String) (c : PublishedKeyCollection),
      c.explicit_nameservers = explicit →
      (∀ n, (n ∈ c.zone_dnskey.flatMap (fun p => p.2.map Prod.fst)) ↔
        ∃ z ∈ c.known_zones, n ∈ zoneQueryServers explicit env z) →
      ((zones.foldl (query_zone env) c).explicit_nameservers = explicit ∧
       (∀ z, z ∈ (zones.foldl (query_zone env) c).known_zones ↔
          z ∈ zones ∨ z ∈ c.known_zones) ∧
       (∀ n, (n ∈ (zones.foldl (query_zone env) c).zone_dnskey.flatMap
            (fun p => p.2.map Prod.fst)) ↔
          ∃ z, (z ∈ zones ∨ z ∈ c.known_zones) ∧
            n ∈ zoneQueryServers explicit env z)) := by
  intro zones
  induction zones with
  | nil =>
    intro c hexp hI
    refine ⟨hexp, fun z => by simp, fun n => ?_⟩
    simp only [List.foldl_nil]
    rw [hI n]
    simp
  | cons zone zs ih =>
    intro c hexp hI
    simp only [List.foldl_cons]
    have hI' : ∀ n, (n ∈ (query_zone env c zone).zone_dnskey.flatMap
        (fun p => p.2.map Prod.fst)) ↔
        ∃ z ∈ (query_zone env c zone).known_zones,
          n ∈ zoneQueryServers explicit env z := by
      intro n
      have := query_zone_invariant env c zone (by rw [hexp]; exact hI) n
      rw [hexp] at this
      exact this
    have hexp' : (query_zone env c zone).explicit_nameservers = explicit := by
      rw [query_zone_explicit, hexp]
    obtain ⟨ha, hb, hc⟩ := ih (query_zone env c zone) hexp' hI'
    refine ⟨ha, ?_, ?_⟩
    · intro z
      rw [hb z, query_zone_known]
      simp only [List.mem_cons]
      tauto
    · intro n
      rw [hc n]
      constructor
      · rintro ⟨z, hz | hz, hn⟩
        · exact ⟨z, Or.inl (List.mem_cons_of_mem _ hz), hn⟩
        · rw [query_zone_known] at hz
          rcases hz with rfl | hz
          · exact ⟨z, Or.inl (List.mem_cons_self _ _), hn⟩
          · exact ⟨z, Or.inr hz, hn⟩
      · rintro ⟨z, hz | hz, hn⟩
        · rcases List.mem_cons.mp hz with rfl | hz
          · exact ⟨z, Or.inr ((query_zone_known env c z z).mpr (Or.inl rfl)), hn⟩
          · exact ⟨z, Or.inl hz, hn⟩
        · exact ⟨z, Or.inr ((query_zone_known env c zone z).mpr (Or.inr hz)), hn⟩

/-- Claim C10 (amended): after any sequence of zone queries,
`contacted_servers` is the collection's memorized DS resolver (the one that
answered the *most recent* successful DS lookup, `none` if none succeeded)
prepended — without deduplication — to the name-sorted, duplicate-free list
of exactly those servers that were queried for DNSKEY/RRSIG records during
the run (the explicit override servers, or each queried zone's own NS set). -/
theorem claim_C10_contacted_servers (explicit : Option (List String))
    (env : String → ZoneEnv) (zones : List String) :
    contacted_servers (zones.foldl (query_zone env) (initCollection explicit)) =
      (zones.foldl (query_zone env) (initCollection explicit)).used_resolver ::
        (sortedSet ((zones.foldl (query_zone env)
          (initCollection explicit)).zone_dnskey.flatMap
            (fun p => p.2.map Prod.fst))).map some ∧
    List.Pairwise strLE
      (sortedSet ((zones.foldl (query_zone env)
        (initCollection explicit)).zone_dnskey.flatMap (fun p => p.2.map Prod.fst))) ∧
    (sortedSet ((zones.foldl (query_zone env)
      (initCollection explicit)).zone_dnskey.flatMap (fun p => p.2.map Prod.fst))).Nodup ∧
    (∀ n, n ∈ sortedSet ((zones.foldl (query_zone env)
        (initCollection explicit)).zone_dnskey.flatMap (fun p => p.2.map Prod.fst)) ↔
      ∃ z ∈ zones, n ∈ zoneQueryServers explicit env z) := by
  obtain ⟨-, -, hc⟩ := fold_query_zone_servers env explicit zones
    (initCollection explicit) rfl (by intro n; simp [initCollection])
  refine ⟨rfl, sortedSet_sorted _, sortedSet_nodup _, fun n => ?_⟩
  rw [sortedSet_mem, hc n]
  constructor
  · rintro ⟨z, hz | hz, hn⟩
    · exact ⟨z, hz, hn⟩
    · simp [initCollection] at hz
  · rintro ⟨z, hz, hn⟩
    exact ⟨z, Or.inl hz, hn⟩
